import Mathlib

/-! Verification development for the lab_btree B-tree dictionary
(src/lab_btree/btree.cpp, test driver src/lab_btree/test_btree.cpp).

Keys and values are instantiated at Int, matching the test driver's
BTree<int, int>.  The companion header btree.h (node type, constructor,
insertion_idx, is_valid) is not part of src/, so those pieces are modelled
from the spec and marked as such.

Two renderings of the code are used:

* a pure value rendering (`BTreeNode`, `BTree`) of the insert / find path,
  where the parent back-pointers are irrelevant (neither find, insert,
  split_child's result shape, nor is_valid reads them);
* a heap rendering (`HNode`, `HState`) with an explicit node arena and
  parent pointers, used for the removal path, whose code navigates parent
  pointers and mutates several nodes at once.  C++ undefined behaviour
  (out-of-bounds vector access, null dereference, reading an
  uninitialised local, back()/front() on an empty vector) is made explicit
  as `Except HErr`. -/

/-- Stored entry: DataPair from the missing btree.h, modelled from the spec:
section 3 defines Entry as an ordered pair (key, value); ordering and
equality are by key. -/
structure DataPair where
  key : Int
  value : Int
deriving DecidableEq, Repr

instance : Inhabited DataPair := ⟨⟨0, 0⟩⟩

/-- Modelled from the spec: insertion_idx lives in the missing btree.h.
Spec section 4.1: the smallest index i with elements[i].key >= target, or
elements.len() if none, with linear-scan (first match) tie-breaking. -/
def insertion_idx (es : List DataPair) (k : Int) : Nat :=
  es.findIdx (fun e => decide (k ≤ e.key))

/-- Pure value rendering of BTreeNode (fields is_leaf, elements, children
of the missing btree.h, as used by btree.cpp; the parent field is dropped
here because the find / insert path never reads it). -/
inductive BTreeNode : Type where
  | mk (is_leaf : Bool) (elements : List DataPair) (children : List BTreeNode)

instance : Inhabited BTreeNode := ⟨.mk true [] []⟩

def BTreeNode.elements : BTreeNode → List DataPair
  | .mk _ es _ => es

def BTreeNode.children : BTreeNode → List BTreeNode
  | .mk _ _ cs => cs

def BTreeNode.leafFlag : BTreeNode → Bool
  | .mk l _ _ => l

mutual

/-- Recursive find, BTree::find(subroot, key), btree.cpp lines 58-79.
Returns none exactly where the C++ would index children out of bounds
(undefined behaviour); that never happens on valid trees. -/
def findRec (k : Int) : BTreeNode → Option Int
  | .mk lf es cs =>
    let i := insertion_idx es k
    if i < es.length ∧ (es.getD i default).key = k then
      some (es.getD i default).value
    else if lf then
      some 0
    else
      findInChild k cs i

/-- Descent into children[i], the subroot->children[first_larger_idx]
access of btree.cpp line 73, rendered as a structural walk; none models
the out-of-bounds access. -/
def findInChild (k : Int) : List BTreeNode → Nat → Option Int
  | [], _ => none
  | c :: _, 0 => findRec k c
  | _ :: cs, i + 1 => findInChild k cs i

end

/-- The tree object: order parameter plus optionally-null owned root. -/
structure BTree where
  order : Nat
  root : Option BTreeNode

/-- Public find, btree.cpp lines 21-25: default value V() = 0 on an empty
tree, otherwise the recursive find. -/
def BTree.find (t : BTree) (k : Int) : Option Int :=
  match t.root with
  | none => some 0
  | some r => findRec k r

/-- BTree::split_child, btree.cpp lines 361-431, on the pure rendering:
promote the median of children[child_idx] into the parent at child_idx and
insert the new right sibling at child_idx + 1; the sibling takes the
entries after mid and the children from mid_children on, the old child
keeps the prefixes.  none models the C++ undefined behaviour cases
(missing child, (0 - 1) / 2 on size_t, iterator past end). -/
def split_child (parent : BTreeNode) (child_idx : Nat) : Option BTreeNode :=
  match parent with
  | .mk lf es cs =>
    match cs[child_idx]? with
    | none => none
    | some (.mk clf ces ccs) =>
      if ces.length = 0 then none
      else if es.length < child_idx then none
      else
        let mid := (ces.length - 1) / 2
        let midc := ccs.length / 2
        let med := ces.getD mid default
        let newc := BTreeNode.mk clf (ces.drop (mid + 1)) (ccs.drop midc)
        let oldc := BTreeNode.mk clf (ces.take mid) (ccs.take midc)
        some (.mk lf (es.insertIdx child_idx med)
          ((cs.set child_idx oldc).insertIdx (child_idx + 1) newc))

mutual

/-- Recursive insert, BTree::insert(subroot, pair), btree.cpp lines 440-458.
DataPair operator== is by key (modelled from the spec: "if the key already
exists there, do nothing").  After the recursive call the child is split
when it holds at least order entries. -/
def insertRec (order : Nat) (pair : DataPair) : BTreeNode → Option BTreeNode
  | .mk lf es cs =>
    let i := insertion_idx es pair.key
    if i < es.length ∧ (es.getD i default).key = pair.key then
      some (.mk lf es cs)
    else if lf then
      some (.mk lf (es.insertIdx i pair) cs)
    else
      match insertChildren order pair cs i with
      | none => none
      | some cs' =>
        match cs'[i]? with
        | none => none
        | some c' =>
          if order ≤ c'.elements.length then
            split_child (.mk lf es cs') i
          else
            some (.mk lf es cs')

/-- Recursive insert into children[i] (the child access and in-place
mutation of btree.cpp lines 454-455), rendered as a structural walk that
replaces the i-th child; none models the out-of-bounds access. -/
def insertChildren (order : Nat) (pair : DataPair) :
    List BTreeNode → Nat → Option (List BTreeNode)
  | [], _ => none
  | c :: cs, 0 =>
    match insertRec order pair c with
    | none => none
    | some c' => some (c' :: cs)
  | c :: cs, i + 1 =>
    match insertChildren order pair cs i with
    | none => none
    | some cs' => some (c :: cs')

end

/-- Public insert, btree.cpp lines 340-359: lazily create a leaf root
(node constructor modelled from the spec: fresh empty node), insert, and
if the root overflowed wrap it in a new root and split. -/
def BTree.insert (t : BTree) (k v : Int) : Option BTree :=
  let r0 := t.root.getD (BTreeNode.mk true [] [])
  match insertRec t.order ⟨k, v⟩ r0 with
  | none => none
  | some r1 =>
    if t.order ≤ r1.elements.length then
      match split_child (.mk false [] [r1]) 0 with
      | none => none
      | some nr => some ⟨t.order, some nr⟩
    else
      some ⟨t.order, some r1⟩

/-- Sequential bulk insert (the do_inserts driver loop of test_btree.cpp). -/
def insertAll (t : BTree) : List (Int × Int) → Option BTree
  | [] => some t
  | p :: ps =>
    match t.insert p.1 p.2 with
    | none => none
    | some t' => insertAll t' ps

mutual

/-- All stored entries of a subtree (node entries first, then children,
child order preserved). -/
def allEntries : BTreeNode → List DataPair
  | .mk _ es cs => es ++ allEntriesL cs

/-- All stored entries of a list of subtrees. -/
def allEntriesL : List BTreeNode → List DataPair
  | [] => []
  | c :: cs => allEntries c ++ allEntriesL cs

end

/-- All keys of a subtree. -/
def keysN (n : BTreeNode) : List Int :=
  (allEntries n).map DataPair.key

/-- Minimum occupancy of a non-root node, spec section 3:
ceil(order / 2) - 1. -/
def minOcc (order : Nat) : Nat := (order + 1) / 2 - 1

/-- Strictly ascending test for a key list. -/
def ascB : List Int → Bool
  | [] => true
  | [_] => true
  | a :: b :: t => decide (a < b) && ascB (b :: t)

mutual

/-- Height of a subtree: 0 for leaves, 1 + max child height otherwise. -/
def heightN : BTreeNode → Nat
  | .mk _ _ cs => heightCs cs

/-- One plus the maximal height among a child list (0 if empty). -/
def heightCs : List BTreeNode → Nat
  | [] => 0
  | c :: cs => max (1 + heightN c) (heightCs cs)

end

/-- Spec section 3 invariant 3 at one node: every key in children[i] is
below elements[i].key and every key in children[i+1] is above it. -/
def rangeOkB (es : List DataPair) (cs : List BTreeNode) : Bool :=
  (List.range es.length).all fun i =>
    ((keysN (cs.getD i default)).all fun x => decide (x < (es.getD i default).key)) &&
    ((keysN (cs.getD (i + 1) default)).all fun x => decide ((es.getD i default).key < x))

/-- Spec section 3 invariant 5 at one node: all children have one height. -/
def heightsEqB : List BTreeNode → Bool
  | [] => true
  | c :: rest => rest.all fun d => heightN d == heightN c

mutual

/-- Modelled from the spec: is_valid is declared in the missing btree.h;
spec section 4.5 says it traverses the whole tree and checks invariants
1-5 of section 3 (sortedness, children-count relation, ordering property,
equal leaf depth, occupancy bounds with the root exempt from the minimum). -/
def validNode (order : Nat) (isRoot : Bool) : BTreeNode → Bool
  | .mk lf es cs =>
    ascB (es.map DataPair.key) &&
    (if lf then cs.isEmpty else cs.length == es.length + 1) &&
    rangeOkB es cs &&
    heightsEqB cs &&
    (decide ((if isRoot then 0 else minOcc order) ≤ es.length) &&
      decide (es.length ≤ order - 1)) &&
    validL order cs

/-- Validity of every node in a child list (none of them is the root). -/
def validL (order : Nat) : List BTreeNode → Bool
  | [] => true
  | c :: cs => validNode order false c && validL order cs

end

/-- Modelled from the spec: the public is_valid(order) of the missing
btree.h; an empty tree is trivially valid. -/
def BTree.is_valid (t : BTree) (order : Nat) : Bool :=
  match t.root with
  | none => true
  | some r => validNode order true r

/-- Lower-bound order: the key k lies above lo (none is minus infinity). -/
def oLT : Option Int → Int → Prop
  | none, _ => True
  | some a, k => a < k

/-- Upper-bound order: the key k lies below hi (none is plus infinity). -/
def oGT : Option Int → Int → Prop
  | none, _ => True
  | some b, k => k < b

instance (lo : Option Int) (k : Int) : Decidable (oLT lo k) :=
  match lo with
  | none => .isTrue trivial
  | some a => inferInstanceAs (Decidable (a < k))

instance (hi : Option Int) (k : Int) : Decidable (oGT hi k) :=
  match hi with
  | none => .isTrue trivial
  | some b => inferInstanceAs (Decidable (k < b))

/-- Entry list strictly ascending by key, with every key inside (lo, hi). -/
def ChainBnd : Option Int → Option Int → List DataPair → Prop
  | _, _, [] => True
  | lo, hi, e :: es => oLT lo e.key ∧ oGT hi e.key ∧ ChainBnd (some e.key) hi es

/-- One layer of the internal-node invariant: children interleave with the
separator entries, and each child satisfies P strictly between its
adjacent separators. -/
def GoodSeq (P : Option Int → Option Int → BTreeNode → Prop) :
    Option Int → Option Int → List DataPair → List BTreeNode → Prop
  | lo, hi, [], [c] => P lo hi c
  | lo, hi, e :: es, c :: cs =>
      oLT lo e.key ∧ oGT hi e.key ∧ P lo (some e.key) c ∧
        GoodSeq P (some e.key) hi es cs
  | _, _, [], [] => False
  | _, _, [], _ :: _ :: _ => False
  | _, _, _ :: _, [] => False

/-- Structural invariant of one subtree: GoodN order h lower upper lo hi n
says n has height exactly h, its own entry count lies in [lower, upper],
every key lies strictly inside (lo, hi), entries are strictly sorted,
non-leaf nodes have entry count + 1 children of height h - 1, each child
strictly between the adjacent separators, and every strict descendant
respects the non-root occupancy [minOcc order, order - 1]. -/
def GoodN (order : Nat) : Nat → Nat → Nat → Option Int → Option Int → BTreeNode → Prop
  | 0, lower, upper, lo, hi, n =>
      ∃ es, n = .mk true es [] ∧ lower ≤ es.length ∧ es.length ≤ upper ∧
        ChainBnd lo hi es
  | h + 1, lower, upper, lo, hi, n =>
      ∃ es cs, n = .mk false es cs ∧ lower ≤ es.length ∧ es.length ≤ upper ∧
        GoodSeq (GoodN order h (minOcc order) (order - 1)) lo hi es cs

-- Sanity evaluations of the executable model against hand-computed trees.
example :
    insertAll ⟨3, none⟩ [(1, 1), (2, 2), (3, 3)] =
      some ⟨3, some (.mk false [⟨2, 2⟩]
        [.mk true [⟨1, 1⟩] [], .mk true [⟨3, 3⟩] []])⟩ := rfl

example :
    (insertAll ⟨3, none⟩ [(1, 1), (2, 2), (3, 3)]).map (fun t => t.is_valid 3) =
      some true := rfl

example :
    (insertAll ⟨3, none⟩ [(39, 5), (4, 7), (5, 43), (52, 3), (99, 2), (23, 7)]).map
      (fun t => (t.is_valid 3, t.find 23, t.find (-1))) =
      some (true, some 7, some 0) := rfl

@[simp] theorem elements_mk (l : Bool) (es : List DataPair) (cs : List BTreeNode) :
    (BTreeNode.mk l es cs).elements = es := rfl

@[simp] theorem children_mk (l : Bool) (es : List DataPair) (cs : List BTreeNode) :
    (BTreeNode.mk l es cs).children = cs := rfl

@[simp] theorem leafFlag_mk (l : Bool) (es : List DataPair) (cs : List BTreeNode) :
    (BTreeNode.mk l es cs).leafFlag = l := rfl

theorem oLT_of_lt {lo : Option Int} {a b : Int} (h1 : oLT lo a) (h2 : a < b) : oLT lo b := by
  cases lo with
  | none => trivial
  | some x => exact lt_trans h1 h2

theorem oGT_of_lt {hi : Option Int} {a b : Int} (h1 : b < a) (h2 : oGT hi a) : oGT hi b := by
  cases hi with
  | none => trivial
  | some x => exact lt_trans h1 h2

theorem chainBnd_mono_lo {lo lo' hi : Option Int} {es : List DataPair}
    (h : ChainBnd lo hi es) (himp : ∀ x, oLT lo x → oLT lo' x) : ChainBnd lo' hi es := by
  cases es with
  | nil => trivial
  | cons e es => exact ⟨himp _ h.1, h.2.1, h.2.2⟩

theorem chainBnd_mono_hi {lo hi hi' : Option Int} {es : List DataPair}
    (h : ChainBnd lo hi es) (himp : ∀ x, oGT hi x → oGT hi' x) : ChainBnd lo hi' es := by
  induction es generalizing lo with
  | nil => trivial
  | cons e es ih => exact ⟨h.1, himp _ h.2.1, ih h.2.2⟩

theorem chainBnd_mem {lo hi : Option Int} {es : List DataPair}
    (h : ChainBnd lo hi es) : ∀ e ∈ es, oLT lo e.key ∧ oGT hi e.key := by
  induction es generalizing lo with
  | nil => intro e he; cases he
  | cons e0 es ih =>
    intro e he
    rcases List.mem_cons.mp he with rfl | he'
    · exact ⟨h.1, h.2.1⟩
    · have := ih h.2.2 e he'
      exact ⟨oLT_of_lt h.1 this.1, this.2⟩

theorem allEntries_mk (l : Bool) (es : List DataPair) (cs : List BTreeNode) :
    allEntries (.mk l es cs) = es ++ allEntriesL cs := by
  simp [allEntries]

theorem allEntriesL_nil : allEntriesL [] = [] := by simp [allEntriesL]

theorem allEntriesL_cons (c : BTreeNode) (cs : List BTreeNode) :
    allEntriesL (c :: cs) = allEntries c ++ allEntriesL cs := by
  simp [allEntriesL]


theorem GoodN.len_lb {order h lower upper : Nat} {lo hi : Option Int} {n : BTreeNode}
    (hg : GoodN order h lower upper lo hi n) : lower ≤ n.elements.length := by
  cases h with
  | zero => obtain ⟨es, rfl, hl, -, -⟩ := hg; simpa using hl
  | succ h => obtain ⟨es, cs, rfl, hl, -, -⟩ := hg; simpa using hl

theorem GoodN.len_ub {order h lower upper : Nat} {lo hi : Option Int} {n : BTreeNode}
    (hg : GoodN order h lower upper lo hi n) : n.elements.length ≤ upper := by
  cases h with
  | zero => obtain ⟨es, rfl, -, hu, -⟩ := hg; simpa using hu
  | succ h => obtain ⟨es, cs, rfl, -, hu, -⟩ := hg; simpa using hu

theorem GoodN.relax {order h lower upper lower' upper' : Nat} {lo hi : Option Int}
    {n : BTreeNode} (hg : GoodN order h lower upper lo hi n)
    (hl : lower' ≤ n.elements.length) (hu : n.elements.length ≤ upper') :
    GoodN order h lower' upper' lo hi n := by
  cases h with
  | zero =>
    obtain ⟨es, rfl, -, -, hc⟩ := hg
    exact ⟨es, rfl, by simpa using hl, by simpa using hu, hc⟩
  | succ h =>
    obtain ⟨es, cs, rfl, -, -, hgl⟩ := hg
    exact ⟨es, cs, rfl, by simpa using hl, by simpa using hu, hgl⟩

theorem goodSeq_imp {P Q : Option Int → Option Int → BTreeNode → Prop}
    (himp : ∀ lo hi c, P lo hi c → Q lo hi c) :
    ∀ {lo hi : Option Int} {es : List DataPair} {cs : List BTreeNode},
      GoodSeq P lo hi es cs → GoodSeq Q lo hi es cs := by
  intro lo hi es cs
  induction es generalizing lo cs with
  | nil =>
    match cs with
    | [] => exact fun h => h.elim
    | [c] => exact fun h => himp lo hi c h
    | _ :: _ :: _ => exact fun h => h.elim
  | cons e es ih =>
    match cs with
    | [] => exact fun h => h.elim
    | c :: cs => exact fun h => ⟨h.1, h.2.1, himp _ _ _ h.2.2.1, ih h.2.2.2⟩

theorem goodSeq_entries_bdd {P : Option Int → Option Int → BTreeNode → Prop}
    (hP : ∀ lo hi c, P lo hi c → ∀ e ∈ allEntries c, oLT lo e.key ∧ oGT hi e.key) :
    ∀ {lo hi : Option Int} {es : List DataPair} {cs : List BTreeNode},
      GoodSeq P lo hi es cs → ∀ e ∈ es ++ allEntriesL cs, oLT lo e.key ∧ oGT hi e.key := by
  intro lo hi es cs
  induction es generalizing lo cs with
  | nil =>
    match cs with
    | [] => exact fun h => h.elim
    | [c] =>
      intro h e he
      simp only [List.nil_append, allEntriesL_cons, allEntriesL_nil, List.append_nil] at he
      exact hP lo hi c h e he
    | _ :: _ :: _ => exact fun h => h.elim
  | cons e0 es ih =>
    match cs with
    | [] => exact fun h => h.elim
    | c :: cs =>
      intro h e he
      simp only [List.cons_append, List.mem_cons, allEntriesL_cons, List.mem_append] at he
      rcases he with rfl | hes | hin | hrest
      · exact ⟨h.1, h.2.1⟩
      · have := ih h.2.2.2 e (by simp [List.mem_append, hes])
        exact ⟨oLT_of_lt h.1 this.1, this.2⟩
      · have := hP _ _ _ h.2.2.1 e hin
        exact ⟨this.1, oGT_of_lt this.2 h.2.1⟩
      · have := ih h.2.2.2 e (by simp [List.mem_append, hrest])
        exact ⟨oLT_of_lt h.1 this.1, this.2⟩

theorem goodN_entries_bdd : ∀ (h : Nat) {order lower upper : Nat} {lo hi : Option Int}
    {n : BTreeNode}, GoodN order h lower upper lo hi n →
    ∀ e ∈ allEntries n, oLT lo e.key ∧ oGT hi e.key := by
  intro h
  induction h with
  | zero =>
    intro order lower upper lo hi n hg e he
    obtain ⟨es, rfl, -, -, hc⟩ := hg
    refine chainBnd_mem hc e ?_
    simpa [allEntries_mk, allEntriesL_nil] using he
  | succ h IH =>
    intro order lower upper lo hi n hg e he
    obtain ⟨es, cs, rfl, -, -, hgl⟩ := hg
    refine goodSeq_entries_bdd (fun lo' hi' c hc => IH hc) hgl e ?_
    simpa [allEntries_mk] using he

theorem goodSeq_heightCs {P : Option Int → Option Int → BTreeNode → Prop} {h : Nat}
    (hP : ∀ lo hi c, P lo hi c → heightN c = h) :
    ∀ {lo hi : Option Int} {es : List DataPair} {cs : List BTreeNode},
      GoodSeq P lo hi es cs → heightCs cs = h + 1 := by
  intro lo hi es cs
  induction es generalizing lo cs with
  | nil =>
    match cs with
    | [] => exact fun hx => hx.elim
    | [c] => intro hx; simp [heightCs, hP lo hi c hx]; omega
    | _ :: _ :: _ => exact fun hx => hx.elim
  | cons e0 es ih =>
    match cs with
    | [] => exact fun hx => hx.elim
    | c :: cs =>
      intro hx
      have h1 := hP _ _ _ hx.2.2.1
      have h2 := ih hx.2.2.2
      simp [heightCs, h1, h2]; omega

theorem goodN_height : ∀ (h : Nat) {order lower upper : Nat} {lo hi : Option Int}
    {n : BTreeNode}, GoodN order h lower upper lo hi n → heightN n = h := by
  intro h
  induction h with
  | zero =>
    intro order lower upper lo hi n hg
    obtain ⟨es, rfl, -, -, -⟩ := hg
    simp [heightN, heightCs]
  | succ h IH =>
    intro order lower upper lo hi n hg
    obtain ⟨es, cs, rfl, -, -, hgl⟩ := hg
    have := goodSeq_heightCs (fun lo' hi' c hc => IH hc) hgl
    simpa [heightN] using this

theorem insertion_idx_nil (k : Int) : insertion_idx [] k = 0 := rfl

theorem insertion_idx_cons_le {e : DataPair} {k : Int} (es : List DataPair)
    (h : k ≤ e.key) : insertion_idx (e :: es) k = 0 := by
  simp [insertion_idx, List.findIdx_cons, h]

theorem insertion_idx_cons_gt {e : DataPair} {k : Int} (es : List DataPair)
    (h : e.key < k) : insertion_idx (e :: es) k = insertion_idx es k + 1 := by
  simp [insertion_idx, List.findIdx_cons, not_le.mpr h]

theorem insertion_idx_le (es : List DataPair) (k : Int) :
    insertion_idx es k ≤ es.length := by
  unfold insertion_idx
  exact List.findIdx_le_length _

theorem chain_found {lo hi : Option Int} {es : List DataPair}
    (hc : ChainBnd lo hi es) {e : DataPair} (he : e ∈ es) :
    insertion_idx es e.key < es.length ∧
      es.getD (insertion_idx es e.key) default = e := by
  induction es generalizing lo with
  | nil => cases he
  | cons e0 es ih =>
    rcases List.mem_cons.mp he with rfl | he'
    · rw [insertion_idx_cons_le es le_rfl]
      simp
    · have hb := chainBnd_mem hc.2.2 e he'
      rw [insertion_idx_cons_gt es hb.1]
      have h2 := ih hc.2.2 he'
      refine ⟨by simpa [Nat.succ_lt_succ_iff] using h2.1, ?_⟩
      simpa [List.getD_cons_succ] using h2.2

theorem getD_mem {es : List DataPair} {i : Nat} (h : i < es.length) :
    es.getD i default ∈ es := by
  rw [List.getD_eq_getElem _ _ h]
  exact List.getElem_mem h

theorem idx_key_ne_of_not_mem {es : List DataPair} {k : Int}
    (hni : k ∉ es.map DataPair.key) (hlt : insertion_idx es k < es.length) :
    (es.getD (insertion_idx es k) default).key ≠ k := by
  intro heq
  exact hni (List.mem_map.mpr ⟨_, getD_mem hlt, heq⟩)

theorem chainBnd_insertIdx {lo hi : Option Int} {es : List DataPair} {k v : Int}
    (hc : ChainBnd lo hi es) (hlo : oLT lo k) (hhi : oGT hi k)
    (hni : k ∉ es.map DataPair.key) :
    ChainBnd lo hi (es.insertIdx (insertion_idx es k) ⟨k, v⟩) := by
  induction es generalizing lo with
  | nil => exact ⟨hlo, hhi, trivial⟩
  | cons e0 es ih =>
    have hk0 : k ≠ e0.key := by
      intro h; exact hni (by simp [h])
    rcases lt_or_gt_of_ne hk0 with hlt | hgt
    · rw [insertion_idx_cons_le es hlt.le]
      exact ⟨hlo, hhi, hlt, hc.2.1, hc.2.2⟩
    · rw [insertion_idx_cons_gt es hgt]
      rw [List.insertIdx_succ_cons]
      have hnm : k ∉ es.map DataPair.key := by
        intro hx; exact hni (by simp at hx ⊢; exact Or.inr hx)
      exact ⟨hc.1, hc.2.1, ih hc.2.2 hgt hnm⟩

theorem goodSeq_len {P : Option Int → Option Int → BTreeNode → Prop} :
    ∀ {lo hi : Option Int} {es : List DataPair} {cs : List BTreeNode},
      GoodSeq P lo hi es cs → cs.length = es.length + 1 := by
  intro lo hi es cs
  induction es generalizing lo cs with
  | nil =>
    match cs with
    | [] => exact fun h => h.elim
    | [c] => exact fun _ => rfl
    | _ :: _ :: _ => exact fun h => h.elim
  | cons e0 es ih =>
    match cs with
    | [] => exact fun h => h.elim
    | c :: cs => exact fun h => by simpa using ih h.2.2.2

theorem findRec_cons_gt {k : Int} {e0 : DataPair} {es : List DataPair}
    {c : BTreeNode} {cs : List BTreeNode} (h : e0.key < k) :
    findRec k (.mk false (e0 :: es) (c :: cs)) = findRec k (.mk false es cs) := by
  have hshift := insertion_idx_cons_gt es h
  simp only [findRec, hshift, List.getD_cons_succ, List.length_cons,
    Nat.succ_lt_succ_iff, findInChild]

theorem findRec_mem : ∀ (h : Nat) {order lower upper : Nat} {lo hi : Option Int}
    {n : BTreeNode}, GoodN order h lower upper lo hi n →
    ∀ e ∈ allEntries n, findRec e.key n = some e.value := by
  intro h
  induction h with
  | zero =>
    intro order lower upper lo hi n hg e he
    obtain ⟨es, rfl, -, -, hc⟩ := hg
    have he' : e ∈ es := by simpa [allEntries_mk, allEntriesL_nil] using he
    obtain ⟨h1, h2⟩ := chain_found hc he'
    rw [findRec]
    rw [if_pos ⟨h1, by rw [h2]⟩, h2]
  | succ h IH =>
    intro order lower upper lo hi n hg e he
    obtain ⟨es, cs, rfl, -, -, hgl⟩ := hg
    have he' : e ∈ es ++ allEntriesL cs := by simpa [allEntries_mk] using he
    clear he
    induction es generalizing lo cs with
    | nil =>
      match cs with
      | [c] =>
        have hin : e ∈ allEntries c := by
          simpa [allEntriesL_cons, allEntriesL_nil] using he'
        rw [findRec]
        simp only [insertion_idx_nil, List.length_nil]
        rw [if_neg (by simp), if_neg (by simp)]
        exact IH hgl e hin
      | [] => exact hgl.elim
      | _ :: _ :: _ => exact hgl.elim
    | cons e0 es ih =>
      match cs with
      | [] => exact hgl.elim
      | c :: cs =>
        obtain ⟨h1, h2, hc, htail⟩ := hgl
        simp only [List.cons_append, List.mem_cons, allEntriesL_cons,
          List.mem_append] at he'
        rcases he' with rfl | hes | hin | hrest
        · rw [findRec]
          have hi0 : insertion_idx (e :: es) e.key = 0 := insertion_idx_cons_le es le_rfl
          rw [hi0]
          rw [if_pos (by simp)]
          simp
        · have hk : e0.key < e.key :=
            (goodSeq_entries_bdd (fun lo' hi' c' hc' => goodN_entries_bdd h hc')
              htail e (by simp [List.mem_append, hes])).1
          rw [findRec_cons_gt hk]
          exact ih cs htail (by simp [List.mem_append, hes])
        · have hk : e.key < e0.key := (goodN_entries_bdd h hc e hin).2
          rw [findRec]
          have hi0 : insertion_idx (e0 :: es) e.key = 0 := insertion_idx_cons_le es hk.le
          rw [hi0]
          rw [if_neg (fun hcond => (ne_of_gt hk) (by simpa using hcond.2))]
          simp only [findInChild]
          exact IH hc e hin
        · have hk : e0.key < e.key :=
            (goodSeq_entries_bdd (fun lo' hi' c' hc' => goodN_entries_bdd h hc')
              htail e (by simp [List.mem_append, hrest])).1
          rw [findRec_cons_gt hk]
          exact ih cs htail (by simp [List.mem_append, hrest])

theorem findRec_absent : ∀ (h : Nat) {order lower upper : Nat} {lo hi : Option Int}
    {n : BTreeNode} {k : Int}, GoodN order h lower upper lo hi n →
    k ∉ (allEntries n).map DataPair.key → findRec k n = some 0 := by
  intro h
  induction h with
  | zero =>
    intro order lower upper lo hi n k hg hni
    obtain ⟨es, rfl, -, -, hc⟩ := hg
    have hni' : k ∉ es.map DataPair.key := by
      simpa [allEntries_mk, allEntriesL_nil] using hni
    rw [findRec]
    rw [if_neg (fun hcond => idx_key_ne_of_not_mem hni' hcond.1 hcond.2)]
    rfl
  | succ h IH =>
    intro order lower upper lo hi n k hg hni
    obtain ⟨es, cs, rfl, -, -, hgl⟩ := hg
    have hni' : k ∉ (es ++ allEntriesL cs).map DataPair.key := by
      simpa [allEntries_mk] using hni
    clear hni
    induction es generalizing lo cs with
    | nil =>
      match cs with
      | [c] =>
        rw [findRec]
        simp only [insertion_idx_nil, List.length_nil]
        rw [if_neg (by simp), if_neg (by simp)]
        exact IH hgl (by simpa [allEntriesL_cons, allEntriesL_nil] using hni')
      | [] => exact hgl.elim
      | _ :: _ :: _ => exact hgl.elim
    | cons e0 es ih =>
      match cs with
      | [] => exact hgl.elim
      | c :: cs =>
        obtain ⟨h1, h2, hc, htail⟩ := hgl
        have hk0 : k ≠ e0.key := by
          intro hx; exact hni' (by simp [hx])
        rcases lt_or_gt_of_ne hk0 with hlt | hgt
        · rw [findRec]
          have hi0 : insertion_idx (e0 :: es) k = 0 := insertion_idx_cons_le es hlt.le
          rw [hi0]
          rw [if_neg (fun hcond => hk0 (by simpa using hcond.2.symm))]
          simp only [findInChild]
          refine IH hc ?_
          intro hx
          refine hni' ?_
          simp only [List.map_append, List.map_cons, List.mem_append, List.mem_cons]
          simp only [allEntriesL_cons, List.map_append, List.mem_append] at hx ⊢
          tauto
        · rw [findRec_cons_gt hgt]
          refine ih cs htail ?_
          intro hx
          refine hni' ?_
          simp only [List.map_append, List.map_cons, List.mem_append, List.mem_cons,
            allEntriesL_cons] at hx ⊢
          tauto

theorem goodSeq_chain {P : Option Int → Option Int → BTreeNode → Prop} :
    ∀ {lo hi : Option Int} {es : List DataPair} {cs : List BTreeNode},
      GoodSeq P lo hi es cs → ChainBnd lo hi es := by
  intro lo hi es cs
  induction es generalizing lo cs with
  | nil => exact fun _ => trivial
  | cons e0 es ih =>
    match cs with
    | [] => exact fun h => h.elim
    | c :: cs => exact fun h => ⟨h.1, h.2.1, ih h.2.2.2⟩

theorem goodSeq_mem {P : Option Int → Option Int → BTreeNode → Prop} :
    ∀ {lo hi : Option Int} {es : List DataPair} {cs : List BTreeNode},
      GoodSeq P lo hi es cs → ∀ c ∈ cs, ∃ lo' hi', P lo' hi' c := by
  intro lo hi es cs
  induction es generalizing lo cs with
  | nil =>
    match cs with
    | [] => exact fun h => h.elim
    | [c] =>
      intro h c' hc'
      have : c' = c := List.mem_singleton.mp hc'
      subst this
      exact ⟨lo, hi, h⟩
    | _ :: _ :: _ => exact fun h => h.elim
  | cons e0 es ih =>
    match cs with
    | [] => exact fun h => h.elim
    | c :: cs =>
      intro h c' hc'
      rcases List.mem_cons.mp hc' with rfl | hmem
      · exact ⟨lo, some e0.key, h.2.2.1⟩
      · exact ih h.2.2.2 c' hmem

theorem chain_ascB : ∀ {lo hi : Option Int} {es : List DataPair},
    ChainBnd lo hi es → ascB (es.map DataPair.key) = true := by
  intro lo hi es
  induction es generalizing lo with
  | nil => exact fun _ => rfl
  | cons e0 es ih =>
    intro hc
    match es with
    | [] => rfl
    | e1 :: es' =>
      have h01 : e0.key < e1.key := hc.2.2.1
      have := ih hc.2.2
      simp only [List.map_cons] at this ⊢
      simp [ascB, h01, this]

theorem keysN_mem {n : BTreeNode} {x : Int} :
    x ∈ keysN n ↔ ∃ e ∈ allEntries n, e.key = x := by
  simp [keysN]

theorem keysN_default : keysN (default : BTreeNode) = [] := by
  show keysN (.mk true [] []) = []
  simp [keysN, allEntries_mk, allEntriesL_nil]

theorem goodSeq_head_lb {order h : Nat} :
    ∀ {lo hi : Option Int} {es : List DataPair} {cs : List BTreeNode},
      GoodSeq (GoodN order h (minOcc order) (order - 1)) lo hi es cs →
      ∀ x ∈ keysN (cs.getD 0 default), oLT lo x := by
  intro lo hi es cs
  match es, cs with
  | [], [] => exact fun h => h.elim
  | [], [c] =>
    intro hg x hx
    obtain ⟨e, he, rfl⟩ := keysN_mem.mp hx
    exact (goodN_entries_bdd h hg e he).1
  | [], _ :: _ :: _ => exact fun h => h.elim
  | e0 :: es, [] => exact fun h => h.elim
  | e0 :: es, c :: cs =>
    intro hg x hx
    obtain ⟨e, he, rfl⟩ := keysN_mem.mp hx
    exact (goodN_entries_bdd h hg.2.2.1 e he).1

theorem goodSeq_at {order h : Nat} :
    ∀ {lo hi : Option Int} {es : List DataPair} {cs : List BTreeNode},
      GoodSeq (GoodN order h (minOcc order) (order - 1)) lo hi es cs →
      ∀ i < es.length,
        (((keysN (cs.getD i default)).all fun x =>
            decide (x < (es.getD i default).key)) &&
          ((keysN (cs.getD (i + 1) default)).all fun x =>
            decide ((es.getD i default).key < x))) = true := by
  intro lo hi es cs
  induction es generalizing lo cs with
  | nil => intro _ i hi0; cases hi0
  | cons e0 es ih =>
    match cs with
    | [] => exact fun h => h.elim
    | c :: cs =>
      intro hg i hilen
      match i with
      | 0 =>
        simp only [List.getD_cons_zero, List.getD_cons_succ]
        rw [Bool.and_eq_true, List.all_eq_true, List.all_eq_true]
        constructor
        · intro x hx
          obtain ⟨e, he, rfl⟩ := keysN_mem.mp hx
          exact decide_eq_true (goodN_entries_bdd h hg.2.2.1 e he).2
        · intro x hx
          exact decide_eq_true (goodSeq_head_lb hg.2.2.2 x hx)
      | i + 1 =>
        simp only [List.getD_cons_succ]
        exact ih hg.2.2.2 i (by simpa using hilen)

theorem goodSeq_heightsEq {order h : Nat} {lo hi : Option Int} {es : List DataPair}
    {cs : List BTreeNode}
    (hg : GoodSeq (GoodN order h (minOcc order) (order - 1)) lo hi es cs) :
    heightsEqB cs = true := by
  have hmem := goodSeq_mem hg
  match cs with
  | [] => rfl
  | c :: rest =>
    have hc : heightN c = h := by
      obtain ⟨lo', hi', hx⟩ := hmem c (by simp)
      exact goodN_height h hx
    simp only [heightsEqB, List.all_eq_true]
    intro d hd
    have : heightN d = h := by
      obtain ⟨lo', hi', hx⟩ := hmem d (by simp [hd])
      exact goodN_height h hx
    simp [this, hc]

theorem validL_of {order : Nat} : ∀ {cs : List BTreeNode},
    (∀ c ∈ cs, validNode order false c = true) → validL order cs = true := by
  intro cs
  induction cs with
  | nil => exact fun _ => rfl
  | cons c cs ih =>
    intro hall
    have h1 := hall c (by simp)
    have h2 := ih fun d hd => hall d (by simp [hd])
    simp [validL, h1, h2]

theorem goodN_validNode : ∀ (h : Nat) (isRoot : Bool) {order : Nat}
    {lo hi : Option Int} {n : BTreeNode},
    GoodN order h (if isRoot then 0 else minOcc order) (order - 1) lo hi n →
    validNode order isRoot n = true := by
  intro h
  induction h with
  | zero =>
    intro isRoot order lo hi n hg
    obtain ⟨es, rfl, hl, hu, hc⟩ := hg
    simp only [validNode, Bool.and_eq_true]
    refine ⟨⟨⟨⟨⟨chain_ascB hc, by simp⟩, ?_⟩, rfl⟩, ?_⟩, rfl⟩
    · simp only [rangeOkB, List.all_eq_true, List.mem_range, Bool.and_eq_true]
      intro i hilen
      constructor
      · intro x hx
        rw [List.getD_nil] at hx
        simp [keysN_default] at hx
      · intro x hx
        rw [List.getD_nil] at hx
        simp [keysN_default] at hx
    · simp only [Bool.and_eq_true, decide_eq_true_eq]
      exact ⟨hl, hu⟩
  | succ h IH =>
    intro isRoot order lo hi n hg
    obtain ⟨es, cs, rfl, hl, hu, hgl⟩ := hg
    simp only [validNode, Bool.and_eq_true]
    refine ⟨⟨⟨⟨⟨chain_ascB (goodSeq_chain hgl), ?_⟩, ?_⟩,
      goodSeq_heightsEq hgl⟩, ?_⟩, ?_⟩
    · simp [goodSeq_len hgl]
    · simp only [rangeOkB, List.all_eq_true]
      intro i hi0
      exact goodSeq_at hgl i (by simpa using hi0)
    · simp only [Bool.and_eq_true, decide_eq_true_eq]
      exact ⟨hl, hu⟩
    · refine validL_of fun c hc => ?_
      obtain ⟨lo', hi', hx⟩ := goodSeq_mem hgl c hc
      exact IH false hx

theorem take_getD_drop {es : List DataPair} {j : Nat} (h : j < es.length) :
    es = es.take j ++ es.getD j default :: es.drop (j + 1) := by
  induction es generalizing j with
  | nil => cases h
  | cons e0 es ih =>
    match j with
    | 0 => simp
    | j + 1 =>
      have := ih (j := j) (by simpa using h)
      simpa [List.getD_cons_succ] using this

theorem chain_split {lo hi : Option Int} {es : List DataPair}
    (hc : ChainBnd lo hi es) : ∀ j, j < es.length →
    ChainBnd lo (some (es.getD j default).key) (es.take j) ∧
    ChainBnd (some (es.getD j default).key) hi (es.drop (j + 1)) ∧
    oLT lo (es.getD j default).key ∧ oGT hi (es.getD j default).key := by
  induction es generalizing lo with
  | nil => intro j hj; cases hj
  | cons e0 es ih =>
    intro j hj
    match j with
    | 0 => exact ⟨trivial, hc.2.2, hc.1, hc.2.1⟩
    | j + 1 =>
      have hj' : j < es.length := by simpa using hj
      obtain ⟨ht, hd, hl, hr⟩ := ih hc.2.2 j hj'
      have hmem : es.getD j default ∈ es := getD_mem hj'
      have h0j : e0.key < (es.getD j default).key := (chainBnd_mem hc.2.2 _ hmem).1
      refine ⟨⟨hc.1, h0j, ht⟩, ?_, oLT_of_lt hc.1 h0j, hr⟩
      simpa [List.getD_cons_succ] using hd

theorem goodSeq_split {P : Option Int → Option Int → BTreeNode → Prop} :
    ∀ {lo hi : Option Int} {es : List DataPair} {cs : List BTreeNode},
      GoodSeq P lo hi es cs → ∀ j, j < es.length →
      GoodSeq P lo (some (es.getD j default).key) (es.take j) (cs.take (j + 1)) ∧
      GoodSeq P (some (es.getD j default).key) hi (es.drop (j + 1)) (cs.drop (j + 1)) := by
  intro lo hi es cs
  induction es generalizing lo cs with
  | nil => intro _ j hj; cases hj
  | cons e0 es ih =>
    match cs with
    | [] => exact fun h => h.elim
    | c :: cs =>
      intro hg j hj
      match j with
      | 0 =>
        refine ⟨?_, hg.2.2.2⟩
        simpa [GoodSeq] using hg.2.2.1
      | j + 1 =>
        have hj' : j < es.length := by simpa using hj
        obtain ⟨ht, hd⟩ := ih hg.2.2.2 j hj'
        have hkey : e0.key < (es.getD j default).key :=
          (chainBnd_mem (goodSeq_chain hg.2.2.2) _ (getD_mem hj')).1
        constructor
        · simp only [List.getD_cons_succ, List.take_succ_cons]
          exact ⟨hg.1, hkey, hg.2.2.1, ht⟩
        · simpa [List.getD_cons_succ] using hd

theorem allEntriesL_append (xs ys : List BTreeNode) :
    allEntriesL (xs ++ ys) = allEntriesL xs ++ allEntriesL ys := by
  induction xs with
  | nil => simp [allEntriesL_nil]
  | cons c cs ih => simp [allEntriesL_cons, ih]

theorem minOcc_eq (order : Nat) (h : 3 ≤ order) : minOcc order = (order - 1) / 2 := by
  simp only [minOcc]
  omega

theorem append_swap_perm (A B X Y : List DataPair) :
    ((A ++ B) ++ (X ++ Y)).Perm ((A ++ X) ++ (B ++ Y)) := by
  simp only [List.append_assoc]
  exact List.Perm.append_left A (List.perm_append_comm_assoc B X Y)

theorem split_pieces {order h : Nat} {lo hi : Option Int} {clf : Bool}
    {ces : List DataPair} {ccs : List BTreeNode} (horder : 3 ≤ order)
    (hg : GoodN order h (minOcc order) order lo hi (.mk clf ces ccs))
    (hlen : ces.length = order) :
    GoodN order h (minOcc order) (order - 1) lo
        (some (ces.getD ((ces.length - 1) / 2) default).key)
        (.mk clf (ces.take ((ces.length - 1) / 2)) (ccs.take (ccs.length / 2))) ∧
    GoodN order h (minOcc order) (order - 1)
        (some (ces.getD ((ces.length - 1) / 2) default).key) hi
        (.mk clf (ces.drop ((ces.length - 1) / 2 + 1)) (ccs.drop (ccs.length / 2))) ∧
    oLT lo (ces.getD ((ces.length - 1) / 2) default).key ∧
    oGT hi (ces.getD ((ces.length - 1) / 2) default).key ∧
    (ces ++ allEntriesL ccs).Perm
      ((ces.take ((ces.length - 1) / 2) ++ allEntriesL (ccs.take (ccs.length / 2))) ++
        (ces.getD ((ces.length - 1) / 2) default) ::
        (ces.drop ((ces.length - 1) / 2 + 1) ++ allEntriesL (ccs.drop (ccs.length / 2)))) := by
  have hmid_lt : (ces.length - 1) / 2 < ces.length := by omega
  have hmo := minOcc_eq order horder
  cases h with
  | zero =>
    obtain ⟨es, heq, hl, hu, hc⟩ := hg
    obtain ⟨rfl, rfl, rfl⟩ : clf = true ∧ ces = es ∧ ccs = [] := by
      injection heq with h1 h2 h3
      exact ⟨h1, h2, h3⟩
    obtain ⟨hta, hdr, hlo, hhi⟩ := chain_split hc _ hmid_lt
    refine ⟨⟨_, rfl, ?_, ?_, hta⟩, ⟨_, rfl, ?_, ?_, hdr⟩, hlo, hhi, ?_⟩
    · simp only [List.length_take, hlen, hmo]
      omega
    · simp only [List.length_take, hlen, hmo]
      omega
    · simp only [List.length_drop, hlen, hmo]
      omega
    · simp only [List.length_drop, hlen, hmo]
      omega
    · simp only [List.take_nil, List.drop_nil, allEntriesL_nil, List.append_nil]
      nth_rewrite 1 [take_getD_drop hmid_lt]
      exact List.Perm.refl _
  | succ h =>
    obtain ⟨es, cs, heq, hl, hu, hgl⟩ := hg
    obtain ⟨rfl, rfl, rfl⟩ : clf = false ∧ ces = es ∧ ccs = cs := by
      injection heq with h1 h2 h3
      exact ⟨h1, h2, h3⟩
    have hcl : ccs.length = ces.length + 1 := goodSeq_len hgl
    have hmidc : ccs.length / 2 = (ces.length - 1) / 2 + 1 := by omega
    obtain ⟨hta, hdr⟩ := goodSeq_split hgl _ hmid_lt
    obtain ⟨htaC, hdrC, hloK, hhiK⟩ :=
      chain_split (goodSeq_chain hgl) _ hmid_lt
    rw [hmidc]
    refine ⟨⟨_, _, rfl, ?_, ?_, hta⟩, ⟨_, _, rfl, ?_, ?_, hdr⟩, hloK, hhiK, ?_⟩
    · simp only [List.length_take, hlen, hmo]
      omega
    · simp only [List.length_take, hlen, hmo]
      omega
    · simp only [List.length_drop, hlen, hmo]
      omega
    · simp only [List.length_drop, hlen, hmo]
      omega
    · have hsplit_c : allEntriesL ccs =
          allEntriesL (ccs.take ((ces.length - 1) / 2 + 1)) ++
            allEntriesL (ccs.drop ((ces.length - 1) / 2 + 1)) := by
        rw [← allEntriesL_append, List.take_append_drop]
      have hL : ces ++ allEntriesL ccs =
          (ces.take ((ces.length - 1) / 2) ++
            ces.getD ((ces.length - 1) / 2) default ::
              ces.drop ((ces.length - 1) / 2 + 1)) ++
          (allEntriesL (ccs.take ((ces.length - 1) / 2 + 1)) ++
            allEntriesL (ccs.drop ((ces.length - 1) / 2 + 1))) := by
        rw [← hsplit_c]
        nth_rewrite 1 [take_getD_drop hmid_lt]
        rfl
      rw [hL]
      refine (List.Perm.append_right _ List.perm_middle).trans ?_
      refine .trans ?_ (List.Perm.symm List.perm_middle)
      exact List.Perm.cons _ (append_swap_perm _ _ _ _)

theorem split_child_zero (lf clf : Bool) (es ces : List DataPair)
    (cs ccs : List BTreeNode) (hne : ces.length ≠ 0) :
    split_child (.mk lf es (.mk clf ces ccs :: cs)) 0 =
      some (.mk lf ((ces.getD ((ces.length - 1) / 2) default) :: es)
        (.mk clf (ces.take ((ces.length - 1) / 2)) (ccs.take (ccs.length / 2)) ::
          .mk clf (ces.drop ((ces.length - 1) / 2 + 1)) (ccs.drop (ccs.length / 2)) ::
            cs)) := by
  simp [split_child, hne, List.insertIdx_zero, List.insertIdx_succ_cons]

theorem split_child_cons (lf : Bool) (e : DataPair) (es : List DataPair)
    (c : BTreeNode) (cs : List BTreeNode) (j : Nat) :
    split_child (.mk lf (e :: es) (c :: cs)) (j + 1) =
      (split_child (.mk lf es cs) j).map
        (fun m => match m with | .mk l es2 cs2 => .mk l (e :: es2) (c :: cs2)) := by
  cases hx : cs[j]? with
  | none => simp [split_child, hx]
  | some cnode =>
    obtain ⟨clf, ces, ccs⟩ := cnode
    by_cases h0 : ces.length = 0
    · simp [split_child, hx, h0]
    · by_cases h1 : es.length < j
      · simp [split_child, hx, h0, h1]
      · simp [split_child, hx, h0, h1, List.insertIdx_succ_cons]

theorem insertRec_cons_gt {order : Nat} {pair e0 : DataPair}
    {es : List DataPair} {c : BTreeNode} {cs : List BTreeNode}
    (hk : e0.key < pair.key) :
    insertRec order pair (.mk false (e0 :: es) (c :: cs)) =
      (insertRec order pair (.mk false es cs)).map
        (fun m => match m with | .mk l es2 cs2 => .mk l (e0 :: es2) (c :: cs2)) := by
  have hshift := insertion_idx_cons_gt es hk
  by_cases hcond : insertion_idx es pair.key < es.length ∧
      (es.getD (insertion_idx es pair.key) default).key = pair.key
  · simp only [insertRec, hshift, List.getD_cons_succ, List.length_cons,
      Nat.succ_lt_succ_iff]
    rw [if_pos hcond, if_pos hcond]
    rfl
  · simp only [insertRec, hshift, List.getD_cons_succ, List.length_cons,
      Nat.succ_lt_succ_iff]
    rw [if_neg hcond, if_neg hcond]
    simp only [Bool.false_eq_true, if_false, insertChildren]
    cases hic : insertChildren order pair cs (insertion_idx es pair.key) with
    | none => simp
    | some cs2 =>
      simp only [Option.map_some]
      cases hce : cs2[insertion_idx es pair.key]? with
      | none => simp [List.getElem?_cons_succ, hce]
      | some c' =>
        simp only [List.getElem?_cons_succ, hce]
        by_cases hov : order ≤ c'.elements.length
        · simp only [if_pos hov]
          exact split_child_cons false e0 es c cs2 (insertion_idx es pair.key)
        · simp only [if_neg hov, Option.map_some]
          rfl

theorem perm_splice {A O N R tgt : List DataPair} (med pair : DataPair)
    (hp : (O ++ med :: N).Perm (pair :: tgt)) :
    (med :: (A ++ (O ++ (N ++ R)))).Perm (pair :: (A ++ (tgt ++ R))) := by
  have s1 : (med :: (A ++ (O ++ (N ++ R)))).Perm (A ++ med :: (O ++ (N ++ R))) :=
    List.perm_middle.symm
  have s2 : (med :: (O ++ (N ++ R))).Perm ((O ++ med :: N) ++ R) := by
    have : (O ++ med :: N) ++ R = O ++ med :: (N ++ R) := by simp
    rw [this]
    exact List.perm_middle.symm
  have s3 : ((O ++ med :: N) ++ R).Perm ((pair :: tgt) ++ R) :=
    List.Perm.append_right R hp
  refine s1.trans ?_
  refine (List.Perm.append_left A (s2.trans s3)).trans ?_
  exact List.perm_middle

theorem perm_splice2 {A O R tgt : List DataPair} (pair : DataPair)
    (hp : O.Perm (pair :: tgt)) :
    (A ++ (O ++ R)).Perm (pair :: (A ++ (tgt ++ R))) := by
  have s1 : (A ++ (O ++ R)).Perm (A ++ ((pair :: tgt) ++ R)) :=
    List.Perm.append_left A (List.Perm.append_right R hp)
  have s2 : (pair :: tgt) ++ R = pair :: (tgt ++ R) := rfl
  refine s1.trans ?_
  rw [s2]
  exact List.perm_middle

theorem insertRec_ok : ∀ (h : Nat) {order lower : Nat} {lo hi : Option Int}
    {n : BTreeNode} {k v : Int}, 3 ≤ order →
    GoodN order h lower (order - 1) lo hi n → oLT lo k → oGT hi k →
    ∃ n', insertRec order ⟨k, v⟩ n = some n' ∧
      GoodN order h lower order lo hi n' ∧
      n.elements.length ≤ n'.elements.length ∧
      n'.elements.length ≤ n.elements.length + 1 ∧
      (k ∈ (allEntries n).map DataPair.key → n' = n) ∧
      (k ∉ (allEntries n).map DataPair.key →
        (allEntries n').Perm (⟨k, v⟩ :: allEntries n)) := by
  intro h
  induction h with
  | zero =>
    intro order lower lo hi n k v horder hg hlo hhi
    obtain ⟨es, rfl, hl, hu, hc⟩ := hg
    have hallE : allEntries (BTreeNode.mk true es []) = es := by
      simp [allEntries_mk, allEntriesL_nil]
    by_cases hmem : k ∈ es.map DataPair.key
    · obtain ⟨e, he, hek⟩ := List.mem_map.mp hmem
      subst hek
      obtain ⟨h1, h2⟩ := chain_found hc he
      have hrun : insertRec order ⟨e.key, v⟩ (BTreeNode.mk true es []) =
          some (BTreeNode.mk true es []) := by
        rw [insertRec]
        rw [if_pos ⟨h1, by rw [h2]⟩]
      refine ⟨_, hrun, ⟨es, rfl, hl, by omega, hc⟩, le_rfl, by omega,
        fun _ => rfl, fun hn => absurd ?_ hn⟩
      rw [hallE]
      exact List.mem_map.mpr ⟨e, he, rfl⟩
    · have hcond : ¬(insertion_idx es k < es.length ∧
          (es.getD (insertion_idx es k) default).key = k) :=
        fun hx => idx_key_ne_of_not_mem hmem hx.1 hx.2
      have hrun : insertRec order ⟨k, v⟩ (BTreeNode.mk true es []) =
          some (BTreeNode.mk true (es.insertIdx (insertion_idx es k) ⟨k, v⟩) []) := by
        rw [insertRec]
        rw [if_neg hcond]
        rfl
      have hlen : (es.insertIdx (insertion_idx es k) ⟨k, v⟩).length = es.length + 1 :=
        List.length_insertIdx _ _ (insertion_idx_le es k)
      refine ⟨_, hrun, ⟨_, rfl, ?_, ?_, chainBnd_insertIdx hc hlo hhi hmem⟩,
        ?_, ?_, ?_, ?_⟩
      · rw [hlen]; omega
      · rw [hlen]; omega
      · simp [hlen]
      · simp [hlen]
      · intro hx; exact absurd (by rwa [hallE] at hx) hmem
      · intro _
        have heq : allEntries
            (BTreeNode.mk true (es.insertIdx (insertion_idx es k) ⟨k, v⟩) []) =
            es.insertIdx (insertion_idx es k) ⟨k, v⟩ := by
          simp [allEntries_mk, allEntriesL_nil]
        rw [heq, hallE]
        exact List.perm_insertIdx _ _ (insertion_idx_le es k)
  | succ h IH =>
    intro order lower lo hi n k v horder hg hlo hhi
    obtain ⟨ES, CS, rfl, hl, hu, hgl⟩ := hg
    suffices hmain : ∀ (CS : List BTreeNode) (lo : Option Int),
        GoodSeq (GoodN order h (minOcc order) (order - 1)) lo hi ES CS → oLT lo k →
        ∃ ES2 CS2,
          insertRec order ⟨k, v⟩ (.mk false ES CS) = some (.mk false ES2 CS2) ∧
          GoodSeq (GoodN order h (minOcc order) (order - 1)) lo hi ES2 CS2 ∧
          ES.length ≤ ES2.length ∧ ES2.length ≤ ES.length + 1 ∧
          (k ∈ (ES ++ allEntriesL CS).map DataPair.key → ES2 = ES ∧ CS2 = CS) ∧
          (k ∉ (ES ++ allEntriesL CS).map DataPair.key →
            (ES2 ++ allEntriesL CS2).Perm (⟨k, v⟩ :: (ES ++ allEntriesL CS))) by
      obtain ⟨ES2, CS2, hrun, hseq2, hn1, hn2, hmemc, hperm⟩ := hmain CS lo hgl hlo
      refine ⟨_, hrun, ⟨ES2, CS2, rfl, by omega, by omega, hseq2⟩,
        by simpa using hn1, by simpa using hn2, ?_, ?_⟩
      · intro hx
        obtain ⟨rfl, rfl⟩ := hmemc (by simpa [allEntries_mk] using hx)
        rfl
      · intro hx
        have := hperm (by simpa [allEntries_mk] using hx)
        simpa [allEntries_mk] using this
    clear hgl hl hu hlo
    induction ES with
    | nil =>
      intro CS lo hgl hlo
      match CS with
      | [] => exact hgl.elim
      | [c] =>
        obtain ⟨c', hcrun, hcgood, hlc1, hlc2, hcmem, hcperm⟩ :=
          @IH order (minOcc order) lo hi c k v horder hgl hlo hhi
        have hrun0 : insertRec order ⟨k, v⟩ (.mk false [] [c]) =
            (if order ≤ c'.elements.length then split_child (.mk false [] [c']) 0
             else some (.mk false [] [c'])) := by
          rw [insertRec]
          rw [if_neg (by simp)]
          rw [if_neg (by simp)]
          simp only [insertion_idx_nil, insertChildren, hcrun,
            List.getElem?_cons_zero]
        by_cases hov : order ≤ c'.elements.length
        · have hceq : c'.elements.length = order := le_antisymm hcgood.len_ub hov
          obtain ⟨clf', ces', ccs'⟩ := c'
          have hceq' : ces'.length = order := by simpa using hceq
          obtain ⟨hgOld, hgNew, hloM, hhiM, hperm5⟩ :=
            split_pieces horder hcgood hceq'
          refine ⟨[ces'.getD ((ces'.length - 1) / 2) default],
            [.mk clf' (ces'.take ((ces'.length - 1) / 2)) (ccs'.take (ccs'.length / 2)),
             .mk clf' (ces'.drop ((ces'.length - 1) / 2 + 1)) (ccs'.drop (ccs'.length / 2))],
            ?_, ?_, ?_, ?_, ?_, ?_⟩
          · rw [hrun0, if_pos hov]
            exact split_child_zero false clf' [] ces' [] ccs' (by omega)
          · exact ⟨hloM, hhiM, hgOld, hgNew⟩
          · simp
          · simp
          · intro hx
            exfalso
            have hxc : k ∈ (allEntries c).map DataPair.key := by
              simpa [allEntriesL_cons, allEntriesL_nil] using hx
            have hcc := hcmem hxc
            have hub := GoodN.len_ub hgl
            rw [← hcc] at hub
            simp only [elements_mk] at hub
            omega
          · intro hx
            have hxc : k ∉ (allEntries c).map DataPair.key := fun hxx =>
              hx (by simpa [allEntriesL_cons, allEntriesL_nil] using hxx)
            have hcp := hcperm hxc
            have hcflat : allEntries (BTreeNode.mk clf' ces' ccs') =
                ces' ++ allEntriesL ccs' := allEntries_mk _ _ _
            rw [hcflat] at hcp
            simp only [allEntriesL_cons, allEntriesL_nil, allEntries_mk,
              List.append_nil, List.nil_append, List.cons_append]
            refine .trans ?_ hcp
            refine .trans ?_ hperm5.symm
            exact List.perm_middle.symm
        · refine ⟨[], [c'], ?_, ?_, le_rfl, by omega, ?_, ?_⟩
          · rw [hrun0, if_neg hov]
          · exact hcgood.relax hcgood.len_lb (by omega)
          · intro hx
            have hxc : k ∈ (allEntries c).map DataPair.key := by
              simpa [allEntriesL_cons, allEntriesL_nil] using hx
            exact ⟨rfl, by rw [hcmem hxc]⟩
          · intro hx
            have hxc : k ∉ (allEntries c).map DataPair.key := fun hxx =>
              hx (by simpa [allEntriesL_cons, allEntriesL_nil] using hxx)
            have hcp := hcperm hxc
            simpa [allEntriesL_cons, allEntriesL_nil] using hcp
      | _ :: _ :: _ => exact hgl.elim
    | cons e0 ES' ihL =>
      intro CS lo hgl hlo
      match CS with
      | [] => exact hgl.elim
      | c0 :: CS' =>
        obtain ⟨h1, h2, hc0, htail⟩ := hgl
        have htailbdd : ∀ e ∈ ES' ++ allEntriesL CS', e0.key < e.key := fun e he =>
          (goodSeq_entries_bdd (fun lo' hi' cx hcx => goodN_entries_bdd h hcx)
            htail e he).1
        have hc0bdd : ∀ e ∈ allEntries c0, e.key < e0.key := fun e he =>
          (goodN_entries_bdd h hc0 e he).2
        rcases lt_trichotomy k e0.key with hklt | hkeq | hkgt
        · have hi0 : insertion_idx (e0 :: ES') k = 0 :=
            insertion_idx_cons_le _ hklt.le
          obtain ⟨c0', hc0run, hc0good, hl1, hl2, hc0mem, hc0perm⟩ :=
            @IH order (minOcc order) lo (some e0.key) c0 k v horder hc0 hlo hklt
          have hrun0 : insertRec order ⟨k, v⟩ (.mk false (e0 :: ES') (c0 :: CS')) =
              (if order ≤ c0'.elements.length then
                split_child (.mk false (e0 :: ES') (c0' :: CS')) 0
               else some (.mk false (e0 :: ES') (c0' :: CS'))) := by
            rw [insertRec]
            rw [if_neg (fun hcond => (ne_of_gt hklt) (by simpa [hi0] using hcond.2))]
            rw [if_neg (by simp)]
            simp only [hi0, insertChildren, hc0run, List.getElem?_cons_zero]
          have hmem_cases : ∀ hx : k ∈ ((e0 :: ES') ++ allEntriesL (c0 :: CS')).map
              DataPair.key, k ∈ (allEntries c0).map DataPair.key := by
            intro hx
            simp only [List.cons_append, List.map_cons, List.mem_cons,
              allEntriesL_cons, List.map_append, List.mem_append] at hx
            rcases hx with heq | hin | hin | hin
            · exact absurd heq.symm (ne_of_gt hklt)
            · obtain ⟨e, he, hek⟩ := List.mem_map.mp hin
              exact absurd (hek ▸ htailbdd e (by simp [List.mem_append, he]))
                (by omega)
            · exact hin
            · obtain ⟨e, he, hek⟩ := List.mem_map.mp hin
              exact absurd (hek ▸ htailbdd e (by simp [List.mem_append, he]))
                (by omega)
          by_cases hov : order ≤ c0'.elements.length
          · have hceq : c0'.elements.length = order := le_antisymm hc0good.len_ub hov
            obtain ⟨clf', ces', ccs'⟩ := c0'
            have hceq' : ces'.length = order := by simpa using hceq
            obtain ⟨hgOld, hgNew, hloM, hhiM, hperm5⟩ :=
              split_pieces horder hc0good hceq'
            refine ⟨(ces'.getD ((ces'.length - 1) / 2) default) :: e0 :: ES',
              (.mk clf' (ces'.take ((ces'.length - 1) / 2)) (ccs'.take (ccs'.length / 2)) ::
               .mk clf' (ces'.drop ((ces'.length - 1) / 2 + 1)) (ccs'.drop (ccs'.length / 2)) ::
               CS'), ?_, ?_, ?_, ?_, ?_, ?_⟩
            · rw [hrun0, if_pos hov]
              exact split_child_zero false clf' (e0 :: ES') ces' CS' ccs' (by omega)
            · exact ⟨hloM, oGT_of_lt hhiM h2, hgOld, hhiM, h2, hgNew, htail⟩
            · simp
            · simp
            · intro hx
              exfalso
              have hcc := hc0mem (hmem_cases hx)
              have hub := GoodN.len_ub hc0
              rw [← hcc] at hub
              simp only [elements_mk] at hub
              omega
            · intro hx
              have hxc : k ∉ (allEntries c0).map DataPair.key := fun hxx =>
                hx (by simp only [List.cons_append, List.map_cons, List.mem_cons,
                  allEntriesL_cons, List.map_append, List.mem_append]; tauto)
              have hcp := hc0perm hxc
              rw [allEntries_mk] at hcp
              have hp : (allEntries (BTreeNode.mk clf'
                    (ces'.take ((ces'.length - 1) / 2))
                    (ccs'.take (ccs'.length / 2))) ++
                  (ces'.getD ((ces'.length - 1) / 2) default) ::
                  allEntries (BTreeNode.mk clf'
                    (ces'.drop ((ces'.length - 1) / 2 + 1))
                    (ccs'.drop (ccs'.length / 2)))).Perm
                  ((⟨k, v⟩ : DataPair) :: allEntries c0) := by
                rw [allEntries_mk, allEntries_mk]
                exact hperm5.symm.trans hcp
              simp only [allEntriesL_cons]
              exact perm_splice _ _ hp
          · refine ⟨e0 :: ES', c0' :: CS', ?_, ?_, le_rfl, by omega, ?_, ?_⟩
            · rw [hrun0, if_neg hov]
            · exact ⟨h1, h2, hc0good.relax hc0good.len_lb (by omega), htail⟩
            · intro hx
              exact ⟨rfl, by rw [hc0mem (hmem_cases hx)]⟩
            · intro hx
              have hxc : k ∉ (allEntries c0).map DataPair.key := fun hxx =>
                hx (by simp only [List.cons_append, List.map_cons, List.mem_cons,
                  allEntriesL_cons, List.map_append, List.mem_append]; tauto)
              have hcp := hc0perm hxc
              simp only [allEntriesL_cons]
              exact perm_splice2 _ hcp
        · subst hkeq
          have hi0 : insertion_idx (e0 :: ES') e0.key = 0 :=
            insertion_idx_cons_le _ le_rfl
          have hrun : insertRec order ⟨e0.key, v⟩
              (.mk false (e0 :: ES') (c0 :: CS')) =
              some (.mk false (e0 :: ES') (c0 :: CS')) := by
            rw [insertRec]
            rw [if_pos ⟨by simp [hi0], by simp [hi0]⟩]
          refine ⟨e0 :: ES', c0 :: CS', hrun, ⟨h1, h2, hc0, htail⟩, le_rfl,
            by omega, fun _ => ⟨rfl, rfl⟩, fun hn => absurd ?_ hn⟩
          exact List.mem_map.mpr ⟨e0, by simp, rfl⟩
        · obtain ⟨ES2', CS2', hrun', hseq', ha1, ha2, hmem', hperm'⟩ :=
            ihL CS' (some e0.key) htail hkgt
          refine ⟨e0 :: ES2', c0 :: CS2', ?_, ?_, ?_, ?_, ?_, ?_⟩
          · rw [insertRec_cons_gt hkgt, hrun']
            rfl
          · exact ⟨h1, h2, hc0, hseq'⟩
          · simpa using ha1
          · simpa using ha2
          · intro hx
            have hxt : k ∈ (ES' ++ allEntriesL CS').map DataPair.key := by
              simp only [List.cons_append, List.map_cons, List.mem_cons,
                allEntriesL_cons, List.map_append, List.mem_append] at hx
              rcases hx with heq | hin | hin | hin
              · exact absurd heq (ne_of_gt hkgt)
              · simp [List.map_append, List.mem_append, hin]
              · obtain ⟨e, he, hek⟩ := List.mem_map.mp hin
                exact absurd (hek ▸ hc0bdd e he) (by omega)
              · simp [List.map_append, List.mem_append, hin]
            obtain ⟨rfl, rfl⟩ := hmem' hxt
            exact ⟨rfl, rfl⟩
          · intro hx
            have hxt : k ∉ (ES' ++ allEntriesL CS').map DataPair.key := by
              intro hxx
              refine hx ?_
              simp only [List.cons_append, List.map_cons, List.mem_cons,
                allEntriesL_cons, List.map_append, List.mem_append] at hxx ⊢
              tauto
            have hp := hperm' hxt
            simp only [allEntriesL_cons]
            refine List.Perm.trans (List.Perm.cons e0
              (List.perm_append_comm_assoc ES2' (allEntries c0)
                (allEntriesL CS2'))) ?_
            refine List.Perm.trans (List.Perm.cons e0
              (List.Perm.append_left (allEntries c0) hp)) ?_
            refine List.Perm.trans (List.Perm.cons e0 List.perm_middle) ?_
            refine List.Perm.trans (List.Perm.swap _ _ _) ?_
            exact List.Perm.cons _ (List.Perm.cons _
              (List.perm_append_comm_assoc _ _ _))

/-- All entries stored in a tree (empty list for the empty tree). -/
def entriesT (t : BTree) : List DataPair :=
  match t.root with
  | none => []
  | some r => allEntries r

/-- All keys stored in a tree. -/
def keysT (t : BTree) : List Int :=
  (entriesT t).map DataPair.key

/-- A reachable-tree invariant: the tree is empty, or its root satisfies
the structural invariant with the root occupancy exemption. -/
def ValidT (t : BTree) : Prop :=
  t.root = none ∨
    ∃ h r, t.root = some r ∧ GoodN t.order h 0 (t.order - 1) none none r

theorem validT_is_valid {t : BTree} (hv : ValidT t) :
    t.is_valid t.order = true := by
  rcases hv with hnone | ⟨h, r, hroot, hg⟩
  · simp [BTree.is_valid, hnone]
  · have := goodN_validNode h true hg
    simp [BTree.is_valid, hroot, this]

theorem find_mem_T {t : BTree} {e : DataPair} (hv : ValidT t)
    (he : e ∈ entriesT t) : t.find e.key = some e.value := by
  rcases hv with hnone | ⟨h, r, hroot, hg⟩
  · rw [entriesT, hnone] at he
    cases he
  · rw [entriesT, hroot] at he
    rw [BTree.find, hroot]
    exact findRec_mem h hg e he

theorem find_absent_T {t : BTree} {k : Int} (hv : ValidT t)
    (hk : k ∉ keysT t) : t.find k = some 0 := by
  rcases hv with hnone | ⟨h, r, hroot, hg⟩
  · rw [BTree.find, hnone]
  · rw [keysT, entriesT, hroot] at hk
    rw [BTree.find, hroot]
    exact findRec_absent h hg hk

theorem insert_ok {t : BTree} (k v : Int) (horder : 3 ≤ t.order)
    (hv : ValidT t) :
    ∃ t', t.insert k v = some t' ∧ ValidT t' ∧ t'.order = t.order ∧
      (k ∈ keysT t → t' = t) ∧
      (k ∉ keysT t → (entriesT t').Perm (⟨k, v⟩ :: entriesT t)) := by
  obtain ⟨h0, hg0, hent⟩ : ∃ h0, GoodN t.order h0 0 (t.order - 1) none none
      (t.root.getD (BTreeNode.mk true [] [])) ∧
      allEntries (t.root.getD (BTreeNode.mk true [] [])) = entriesT t := by
    rcases hv with hnone | ⟨h, r, hroot, hg⟩
    · refine ⟨0, ⟨[], by simp [hnone], le_rfl, by simp, trivial⟩, ?_⟩
      simp [hnone, entriesT, allEntries_mk, allEntriesL_nil]
    · refine ⟨h, by simpa [hroot] using hg, by simp [hroot, entriesT]⟩
  obtain ⟨r1, hrun, hg1, hb1, hb2, hmem1, hperm1⟩ :=
    @insertRec_ok h0 t.order 0 none none _ k v horder hg0 trivial trivial
  have hkeysEq : ((allEntries (t.root.getD (BTreeNode.mk true [] []))).map
      DataPair.key) = keysT t := by rw [hent, keysT]
  by_cases hov : t.order ≤ r1.elements.length
  · have hceq : r1.elements.length = t.order := le_antisymm hg1.len_ub hov
    obtain ⟨lf1, es1, cs1⟩ := r1
    have hceq' : es1.length = t.order := by simpa using hceq
    have hrelax : GoodN t.order h0 (minOcc t.order) t.order none none
        (BTreeNode.mk lf1 es1 cs1) := by
      refine hg1.relax ?_ ?_
      · simp only [elements_mk]
        simp only [minOcc]
        omega
      · simp [hceq']
    obtain ⟨hgOld, hgNew, hloM, hhiM, hperm5⟩ := split_pieces horder hrelax hceq'
    have hsplit := split_child_zero false lf1 [] es1 [] cs1 (by omega)
    have hrun2 : t.insert k v = some ⟨t.order,
        some (BTreeNode.mk false
          [es1.getD ((es1.length - 1) / 2) default]
          [BTreeNode.mk lf1 (es1.take ((es1.length - 1) / 2))
            (cs1.take (cs1.length / 2)),
           BTreeNode.mk lf1 (es1.drop ((es1.length - 1) / 2 + 1))
            (cs1.drop (cs1.length / 2))])⟩ := by
      rw [BTree.insert, hrun]
      dsimp only
      rw [if_pos hov, hsplit]
    refine ⟨_, hrun2, ?_, rfl, ?_, ?_⟩
    · refine Or.inr ⟨h0 + 1, _, rfl, _, _, rfl, by simp, by simp; omega, ?_⟩
      exact ⟨trivial, trivial, hgOld, hgNew⟩
    · intro hx
      exfalso
      have := hmem1 (by rw [hkeysEq]; exact hx)
      have hub := hg0.len_ub
      rw [← this] at hub
      simp only [elements_mk] at hub
      omega
    · intro hx
      have hcp := hperm1 (by rw [hkeysEq]; exact hx)
      rw [hent] at hcp
      have hflat : allEntries (BTreeNode.mk lf1 es1 cs1) =
          es1 ++ allEntriesL cs1 := allEntries_mk _ _ _
      rw [hflat] at hcp
      simp only [entriesT, allEntries_mk, allEntriesL_cons, allEntriesL_nil,
        List.append_nil, List.nil_append, List.cons_append]
      refine .trans ?_ hcp
      refine .trans ?_ hperm5.symm
      exact List.perm_middle.symm
  · have hrun2 : t.insert k v = some ⟨t.order, some r1⟩ := by
      rw [BTree.insert, hrun]
      dsimp only
      rw [if_neg hov]
    refine ⟨_, hrun2, ?_, rfl, ?_, ?_⟩
    · exact Or.inr ⟨h0, r1, rfl, hg1.relax hg1.len_lb (by dsimp only; omega)⟩
    · intro hx
      have heq := hmem1 (by rw [hkeysEq]; exact hx)
      have hroot : t.root = some (t.root.getD (BTreeNode.mk true [] [])) := by
        rcases hr : t.root with - | r
        · rw [keysT] at hx
          rw [entriesT, hr] at hx
          cases hx
        · simp [hr]
      rw [heq]
      rw [← hroot]
    · intro hx
      have hcp := hperm1 (by rw [hkeysEq]; exact hx)
      rw [hent] at hcp
      simpa [entriesT] using hcp

theorem insertAll_ok : ∀ (ps : List (Int × Int)) (t : BTree), 3 ≤ t.order →
    ValidT t → (ps.map Prod.fst).Nodup → (∀ p ∈ ps, p.1 ∉ keysT t) →
    ∃ t', insertAll t ps = some t' ∧ ValidT t' ∧ t'.order = t.order ∧
      (entriesT t').Perm
        ((ps.map fun p => (⟨p.1, p.2⟩ : DataPair)) ++ entriesT t) := by
  intro ps
  induction ps with
  | nil =>
    intro t horder hv _ _
    exact ⟨t, rfl, hv, rfl, by simp⟩
  | cons p ps ih =>
    intro t horder hv hnd hfresh
    obtain ⟨t1, hrun1, hv1, hord1, -, hperm1⟩ :=
      insert_ok p.1 p.2 horder hv
    have hp1 := hperm1 (hfresh p (by simp))
    have hkeys1 : ∀ x, x ∈ keysT t1 ↔ (x = p.1 ∨ x ∈ keysT t) := by
      intro x
      have hmapperm := hp1.map DataPair.key
      constructor
      · intro hx
        have := (hmapperm.mem_iff).mp hx
        simpa [keysT] using this
      · intro hx
        refine (hmapperm.mem_iff).mpr ?_
        simpa [keysT] using hx
    have hfresh1 : ∀ q ∈ ps, q.1 ∉ keysT t1 := by
      intro q hq hqk
      rcases (hkeys1 q.1).mp hqk with heq | hin
      · have : p.1 ∈ ps.map Prod.fst := List.mem_map.mpr ⟨q, hq, heq⟩
        exact (List.nodup_cons.mp hnd).1 this
      · exact hfresh q (by simp [hq]) hin
    obtain ⟨t', hrun', hv', hord', hperm'⟩ := ih t1 (by omega)
      hv1 (by simpa using hnd.of_cons) hfresh1
    refine ⟨t', ?_, hv', by omega, ?_⟩
    · rw [insertAll, hrun1]
      dsimp only
      exact hrun'
    · refine hperm'.trans ?_
      refine (List.Perm.append_left _ hp1).trans ?_
      simp only [List.map_cons, List.cons_append]
      exact List.perm_middle

theorem insertAll_append (t : BTree) (xs ys : List (Int × Int)) :
    insertAll t (xs ++ ys) =
      match insertAll t xs with
      | none => none
      | some t1 => insertAll t1 ys := by
  induction xs generalizing t with
  | nil => simp [insertAll]
  | cons x xs ih =>
    rw [List.cons_append, insertAll, insertAll]
    cases t.insert x.1 x.2 with
    | none => rfl
    | some t1 => exact ih t1

/-- C1: for every sequence of (key, value) pairs with pairwise-distinct keys
and every order >= 3, inserting them all into a fresh tree succeeds, find on
each inserted key returns the value inserted with it, and is_valid(order)
returns true after every individual insert (every prefix of the sequence). -/
theorem c1_insert_find_is_valid (order : Nat) (ps : List (Int × Int))
    (horder : 3 ≤ order) (hnd : (ps.map Prod.fst).Nodup) :
    ∃ t, insertAll ⟨order, none⟩ ps = some t ∧
      (∀ p ∈ ps, t.find p.1 = some p.2) ∧
      ∀ pre suf, ps = pre ++ suf →
        ∃ tp, insertAll ⟨order, none⟩ pre = some tp ∧
          tp.is_valid order = true := by
  obtain ⟨t, hrun, hv, hord, hperm⟩ := insertAll_ok ps ⟨order, none⟩ horder
    (Or.inl rfl) hnd (by intro p _ hk; simp [keysT, entriesT] at hk)
  refine ⟨t, hrun, ?_, ?_⟩
  · intro p hp
    have hmem : (⟨p.1, p.2⟩ : DataPair) ∈ entriesT t := by
      refine hperm.mem_iff.mpr ?_
      simp only [entriesT, List.append_nil]
      exact List.mem_map.mpr ⟨p, hp, rfl⟩
    exact find_mem_T hv hmem
  · intro pre suf heq
    subst heq
    have hndp : (pre.map Prod.fst).Nodup := by
      rw [List.map_append] at hnd
      exact hnd.of_append_left
    obtain ⟨tp, hrunp, hvp, hordp, -⟩ := insertAll_ok pre ⟨order, none⟩ horder
      (Or.inl rfl) hndp (by intro p _ hk; simp [keysT, entriesT] at hk)
    refine ⟨tp, hrunp, ?_⟩
    have := validT_is_valid hvp
    rwa [hordp] at this

/-- Witness for C1 at a concrete input: order 3, pairs (1, 5) and (4, 7). -/
theorem c1_witness :
    ∃ t, insertAll ⟨3, none⟩ [(1, 5), (4, 7)] = some t ∧
      (∀ p ∈ [((1 : Int), (5 : Int)), (4, 7)], t.find p.1 = some p.2) ∧
      ∀ pre suf, [((1 : Int), (5 : Int)), (4, 7)] = pre ++ suf →
        ∃ tp, insertAll ⟨3, none⟩ pre = some tp ∧ tp.is_valid 3 = true :=
  c1_insert_find_is_valid 3 [(1, 5), (4, 7)] (by decide) (by decide)

/-- C8: inserting a key that is already present, with any value, leaves the
tree entirely unchanged: no value update and no structural change. -/
theorem c8_insert_existing_noop (t : BTree) (k v : Int) (horder : 3 ≤ t.order)
    (hv : ValidT t) (hk : k ∈ keysT t) : t.insert k v = some t := by
  obtain ⟨t', hrun, -, -, hmem, -⟩ := insert_ok k v horder hv
  rw [hrun, hmem hk]

/-- Witness for C8: re-inserting key 5 with a different value 99 into a
one-entry tree returns the identical tree. -/
theorem c8_witness :
    (⟨3, some (.mk true [⟨5, 7⟩] [])⟩ : BTree).insert 5 99 =
      some ⟨3, some (.mk true [⟨5, 7⟩] [])⟩ :=
  c8_insert_existing_noop _ 5 99 (by decide)
    (Or.inr ⟨0, _, rfl, ⟨_, rfl, by decide, by decide,
      ⟨trivial, trivial, trivial⟩⟩⟩)
    (by decide)

/-- C10: find's not-found result is the default-constructed value V() = 0:
for every key absent from a valid tree (including every key on the empty
tree) find returns 0, and a key stored with the default value 0 is
indistinguishable from an absent key at the public interface. -/
theorem c10_find_default_sentinel (t : BTree) (k : Int) (hv : ValidT t) :
    (k ∉ keysT t → t.find k = some 0) ∧
    ((⟨k, 0⟩ : DataPair) ∈ entriesT t → t.find k = some 0) :=
  ⟨fun hk => find_absent_T hv hk, fun hm => find_mem_T hv hm⟩

/-- Witness for C10 on the empty tree at key 42. -/
theorem c10_witness :
    (42 ∉ keysT ⟨3, none⟩ → BTree.find ⟨3, none⟩ 42 = some 0) ∧
    ((⟨42, 0⟩ : DataPair) ∈ entriesT ⟨3, none⟩ →
      BTree.find ⟨3, none⟩ 42 = some 0) :=
  c10_find_default_sentinel ⟨3, none⟩ 42 (Or.inl rfl)

/-- Heap rendering of a node: the btree.h node with its parent back-pointer
(addresses are arena indices; None is the null pointer).  Modelled from the
spec for the missing header: a fresh node is empty with null parent. -/
structure HNode where
  is_leaf : Bool
  elements : List DataPair
  children : List Nat
  parent : Option Nat
deriving DecidableEq, Repr

/-- Explicit outcomes for C++ undefined behaviour: out-of-bounds vector
access (including size_t wrap-around), null pointer dereference, read of an
uninitialised local, back()/front() on an empty vector, and exhausted fuel
for loops whose termination the C++ does not guarantee. -/
inductive HErr where
  | oob
  | nullPtr
  | uninit
  | emptyVec
  | fuel
deriving DecidableEq, Repr

/-- Tree object on the heap: order, arena of nodes, root pointer. -/
structure HState where
  order : Nat
  nodes : List HNode
  root : Option Nat
deriving DecidableEq, Repr

/-- size_t arithmetic: reduce an integer index modulo 2^64. -/
def szt (z : Int) : Nat := (z % (2 ^ 64)).toNat

/-- Dereference a possibly-null node pointer. -/
def getNode (st : HState) (i : Option Nat) : Except HErr HNode :=
  match i with
  | none => .error .nullPtr
  | some j =>
    match st.nodes[j]? with
    | some n => .ok n
    | none => .error .oob

/-- Dereference a non-null node address. -/
def getN (st : HState) (i : Nat) : Except HErr HNode :=
  getNode st (some i)

/-- Overwrite the node stored at an address. -/
def setN (st : HState) (i : Nat) (n : HNode) : Except HErr HState :=
  if i < st.nodes.length then .ok { st with nodes := st.nodes.set i n }
  else .error .oob

/-- vector::operator[] read with bounds check (out of bounds is UB). -/
def vGet {α : Type} (l : List α) (i : Nat) : Except HErr α :=
  match l[i]? with
  | some x => .ok x
  | none => .error .oob

/-- vector::operator[] write. -/
def vSet {α : Type} (l : List α) (i : Nat) (x : α) : Except HErr (List α) :=
  if i < l.length then .ok (l.set i x) else .error .oob

/-- vector::insert at begin() + i. -/
def vInsert {α : Type} (l : List α) (i : Nat) (x : α) : Except HErr (List α) :=
  if i ≤ l.length then .ok (l.insertIdx i x) else .error .oob

/-- vector::erase at begin() + i. -/
def vErase {α : Type} (l : List α) (i : Nat) : Except HErr (List α) :=
  if i < l.length then .ok (l.eraseIdx i) else .error .oob

/-- vector::back(), UB on an empty vector. -/
def vBack {α : Type} (l : List α) : Except HErr α :=
  match l.getLast? with
  | some x => .ok x
  | none => .error .emptyVec

/-- vector::front(), UB on an empty vector. -/
def vFront {α : Type} (l : List α) : Except HErr α :=
  match l.head? with
  | some x => .ok x
  | none => .error .emptyVec

/-- new BTreeNode(is_leaf, order): allocate a fresh node at the end of the
arena.  Modelled from the spec: the missing constructor produces an empty
node with a null parent pointer. -/
def allocNode (st : HState) (lf : Bool) : HState × Nat :=
  ({ st with nodes := st.nodes ++ [⟨lf, [], [], none⟩] }, st.nodes.length)

/-- The grandchild re-parenting loops of split_child (btree.cpp 419-422 and
427-430). -/
def reparentAll (st : HState) (ids : List Nat) (pid : Nat) :
    Except HErr HState :=
  match ids with
  | [] => .ok st
  | g :: gs => do
    let gn ← getN st g
    let st1 ← setN st g { gn with parent := some pid }
    reparentAll st1 gs pid

/-- BTree::split_child on the heap, btree.cpp lines 361-431, in C++
statement order with each node re-read at its access point: allocate the
sibling, compute mid and mid_children, insert the median and the sibling
address into the parent, move the suffix entries and children into the
sibling, re-parent its grandchildren, truncate the old child to the
prefixes, re-parent its grandchildren. -/
def split_childH (st : HState) (pOpt : Option Nat) (child_idx : Nat) :
    Except HErr HState :=
  match pOpt with
  | none => .error .nullPtr
  | some pid => do
    let p ← getN st pid
    let cid ← vGet p.children child_idx
    let child ← getN st cid
    let (st1, nid) := allocNode st child.is_leaf
    if child.elements.length = 0 then .error .oob
    else do
      let mid := (child.elements.length - 1) / 2
      let midc := child.children.length / 2
      let med ← vGet child.elements mid
      let p1 ← getN st1 pid
      let pes ← vInsert p1.elements child_idx med
      let pcs ← vInsert p1.children (child_idx + 1) nid
      let st2 ← setN st1 pid { p1 with elements := pes, children := pcs }
      let child2 ← getN st2 cid
      let st3 ← setN st2 nid ⟨child.is_leaf, child2.elements.drop (mid + 1),
        child2.children.drop midc, some pid⟩
      let st4 ← reparentAll st3 (child2.children.drop midc) nid
      let child3 ← getN st4 cid
      let st5 ← setN st4 cid ⟨child.is_leaf, child3.elements.take mid,
        child3.children.take midc, some pid⟩
      reparentAll st5 (child3.children.take midc) cid

/-- Recursive insert on the heap (btree.cpp 440-458), fuelled because the
descent is over heap pointers. -/
def insertRecH : Nat → HState → Nat → DataPair → Except HErr HState
  | 0, _, _, _ => .error .fuel
  | fuel + 1, st, sid, pair => do
    let s ← getN st sid
    let i := insertion_idx s.elements pair.key
    if i < s.elements.length ∧ (s.elements.getD i default).key = pair.key then
      .ok st
    else if s.is_leaf then do
      let es ← vInsert s.elements i pair
      setN st sid { s with elements := es }
    else do
      let cid ← vGet s.children i
      let st1 ← insertRecH fuel st cid pair
      let c ← getN st1 cid
      if st1.order ≤ c.elements.length then
        split_childH st1 (some sid) i
      else
        .ok st1

/-- Public insert on the heap (btree.cpp 340-359). -/
def insertH (st : HState) (k v : Int) : Except HErr HState :=
  let st1 :=
    match st.root with
    | none =>
      let (stA, rid) := allocNode st true
      { stA with root := some rid }
    | some _ => st
  match st1.root with
  | none => .error .nullPtr
  | some rid => do
    let st2 ← insertRecH (st1.nodes.length + 1) st1 rid ⟨k, v⟩
    let r ← getN st2 rid
    if st2.order ≤ r.elements.length then do
      let (st3, nrid) := allocNode st2 false
      let nr ← getN st3 nrid
      let st4 ← setN st3 nrid { nr with children := nr.children ++ [rid] }
      let st5 ← split_childH st4 (some nrid) 0
      .ok { st5 with root := some nrid }
    else
      .ok st2

/-- BTree::borrow_from_sibilings (btree.cpp 81-113).  On the right-borrow
path the local left_sibiling is never assigned; line 106 reads it, which is
rendered as the uninit error (reached only if the preceding out-of-bounds
read of parent->elements[before_idx + 1] succeeded). -/
def borrow_from_sibilingsH (st : HState) (pOpt : Option Nat)
    (idx before_idx : Nat) : Except HErr (Bool × HState) :=
  match pOpt with
  | none => .error .nullPtr
  | some pid => do
    let p ← getN st pid
    if before_idx ≠ 0 then do
      let lsid ← vGet p.children (before_idx - 1)
      let ls ← getN st lsid
      if (st.order - 1) / 2 < ls.elements.length then do
        let tid ← vGet p.children before_idx
        let t ← getN st tid
        let pe ← vGet p.elements (before_idx - 1)
        let tes ← vSet t.elements idx pe
        let st1 ← setN st tid { t with elements := tes }
        let ls2 ← getN st1 lsid
        let lsb ← vBack ls2.elements
        let p2 ← getN st1 pid
        let pes ← vSet p2.elements (before_idx - 1) lsb
        let st2 ← setN st1 pid { p2 with elements := pes }
        let ls3 ← getN st2 lsid
        if ls3.elements.isEmpty then .error .emptyVec
        else do
          let st3 ← setN st2 lsid { ls3 with elements := ls3.elements.dropLast }
          .ok (true, st3)
      else .ok (false, st)
    else if before_idx ≠ p.elements.length then do
      let rsid ← vGet p.children (before_idx + 1)
      let rs ← getN st rsid
      if (st.order - 1) / 2 < rs.elements.length then do
        let tid ← vGet p.children before_idx
        let t ← getN st tid
        let pe ← vGet p.elements (before_idx + 1)
        let tes ← vSet t.elements idx pe
        let _ ← setN st tid { t with elements := tes }
        .error .uninit
      else .ok (false, st)
    else .ok (false, st)

/-- BTree::borrow_from_parent (btree.cpp 116-142): despite the name, merge
the leaf's separator into a sibling and erase the leaf from the parent (the
leaf's own remaining entries are discarded with it).  The debug print of
line 123 performs real reads and is kept. -/
def borrow_from_parentH (st : HState) (pOpt : Option Nat)
    (idx before_idx : Nat) : Except HErr (Bool × HState) :=
  match pOpt with
  | none => .error .nullPtr
  | some pid => do
    let p ← getN st pid
    let prc ← vGet p.children before_idx
    let prn ← getN st prc
    let _ ← vGet prn.elements idx
    if before_idx ≠ 0 then do
      let lsid ← vGet p.children (before_idx - 1)
      let ls ← getN st lsid
      let pe ← vGet p.elements (before_idx - 1)
      let st1 ← setN st lsid { ls with elements := ls.elements ++ [pe] }
      let p2 ← getN st1 pid
      let pes ← vErase p2.elements (before_idx - 1)
      let pcs ← vErase p2.children before_idx
      let st2 ← setN st1 pid { p2 with elements := pes, children := pcs }
      .ok (true, st2)
    else do
      let rsid ← vGet p.children (before_idx + 1)
      let rs ← getN st rsid
      let pe ← vGet p.elements before_idx
      let st1 ← setN st rsid { rs with elements := pe :: rs.elements }
      let p2 ← getN st1 pid
      let pes ← vErase p2.elements before_idx
      let pcs ← vErase p2.children before_idx
      let st2 ← setN st1 pid { p2 with elements := pes, children := pcs }
      .ok (true, st2)

/-- BTree::remove_and_reconstruct (btree.cpp 144-228): merge the leaf into
a sibling, then unconditionally merge its parent into the parent's own
sibling through the grandparent, splitting if the target overflows, and
promote merged->parent when the root became empty.  Line 183 erases
parent->elements at before_idx - 1 even in the before_idx == 0 branch
(size_t wrap-around); the debug prints perform real reads and are kept.
When the current child is not a leaf the function does nothing. -/
def remove_and_reconstructH (st : HState) (pOpt : Option Nat) (idx : Nat)
    (before : List Nat) : Except HErr HState :=
  match pOpt with
  | none => .error .nullPtr
  | some pid => do
    let p ← getN st pid
    let b0 ← vBack before
    let prc ← vGet p.children b0
    let prn ← getN st prc
    let _ ← vGet prn.elements idx
    let before_idx := b0
    let curid ← vGet p.children before_idx
    let cur ← getN st curid
    if cur.is_leaf then
      if cur.elements.length ≤ idx then .error .oob
      else do
        let res ←
          if before_idx ≠ 0 then do
            let lsid ← vGet p.children (before_idx - 1)
            let ls ← getN st lsid
            let pe ← vGet p.elements (before_idx - 1)
            let cur2 ← getN st curid
            let newEls := (ls.elements ++ [pe]) ++
              (cur2.elements.take idx ++ cur2.elements.drop (idx + 1))
            let st1 ← setN st lsid { ls with elements := newEls }
            let p2 ← getN st1 pid
            let pes ← vErase p2.elements (before_idx - 1)
            let pcs ← vErase p2.children before_idx
            let st2 ← setN st1 pid { p2 with elements := pes, children := pcs }
            pure (lsid, st2)
          else do
            let rsid ← vGet p.children (before_idx + 1)
            let rs ← getN st rsid
            let pe ← vGet p.elements before_idx
            let cur2 ← getN st curid
            let newEls := cur2.elements.take idx ++
              (cur2.elements.drop (idx + 1) ++ pe :: rs.elements)
            let st1 ← setN st rsid { rs with elements := newEls }
            let p2 ← getN st1 pid
            let pes ← vErase p2.elements (szt ((before_idx : Int) - 1))
            let pcs ← vErase p2.children before_idx
            let st2 ← setN st1 pid { p2 with elements := pes, children := pcs }
            pure (rsid, st2)
        let merged_id := res.1
        let st2 := res.2
        let before2 := before.dropLast
        let b1 ← vBack before2
        let m ← getN st2 merged_id
        let _ ← getNode st2 m.parent
        let p3 ← getN st2 pid
        let res2 ←
          if b1 ≠ 0 then
            match p3.parent with
            | none => .error .nullPtr
            | some ppid => do
              let pp ← getN st2 ppid
              let gid ← vGet pp.children (b1 - 1)
              let m2 ← getN st2 merged_id
              let st3 ← setN st2 merged_id { m2 with parent := some gid }
              let g ← getN st3 gid
              let ppe ← vGet pp.elements (b1 - 1)
              let st4 ← setN st3 gid
                { g with elements := g.elements ++ [ppe],
                         children := g.children ++ [merged_id] }
              let pp2 ← getN st4 ppid
              let ppes ← vErase pp2.elements (b1 - 1)
              let ppcs ← vErase pp2.children b1
              let st5 ← setN st4 ppid
                { pp2 with elements := ppes, children := ppcs }
              pure (b1 - 1, st5)
          else
            match p3.parent with
            | none => .error .nullPtr
            | some ppid => do
              let pp ← getN st2 ppid
              let gid ← vGet pp.children (b1 + 1)
              let m2 ← getN st2 merged_id
              let st3 ← setN st2 merged_id { m2 with parent := some gid }
              let g ← getN st3 gid
              let ppe ← vGet pp.elements b1
              let st4 ← setN st3 gid
                { g with elements := ppe :: g.elements,
                         children := merged_id :: g.children }
              let pp2 ← getN st4 ppid
              let ppes ← vErase pp2.elements b1
              let ppcs ← vErase pp2.children b1
              let st5 ← setN st4 ppid
                { pp2 with elements := ppes, children := ppcs }
              pure (b1 + 1, st5)
        let parent_insert_idx := res2.1
        let st5 := res2.2
        let m3 ← getN st5 merged_id
        let g2 ← getNode st5 m3.parent
        let st6 ←
          if st.order ≤ g2.elements.length then
            split_childH st5 g2.parent parent_insert_idx
          else .ok st5
        match st6.root with
        | none => .error .nullPtr
        | some rtid => do
          let rt ← getN st6 rtid
          if rt.elements.length = 0 then do
            let m4 ← getN st6 merged_id
            .ok { st6 with root := m4.parent }
          else .ok st6
    else .ok st

/-- BTree::remove_from_leaf (btree.cpp 230-252): erase directly when the
leaf has surplus entries, otherwise borrow from a sibling, else (when the
parent has surplus) merge via borrow_from_parent, else
remove_and_reconstruct. -/
def remove_from_leafH (st : HState) (sid : Nat) (idx : Nat)
    (before : List Nat) : Except HErr HState := do
  let s ← getN st sid
  if (st.order - 1) / 2 < s.elements.length then do
    let es ← vErase s.elements idx
    setN st sid { s with elements := es }
  else do
    let b ← vBack before
    let res ← borrow_from_sibilingsH st s.parent idx b
    if res.1 then .ok res.2
    else do
      let pnode ← getNode res.2 s.parent
      if (st.order - 1) / 2 < pnode.elements.length then do
        let res2 ← borrow_from_parentH res.2 s.parent idx b
        if res2.1 then .ok res2.2
        else remove_and_reconstructH res2.2 s.parent idx before
      else
        remove_and_reconstructH res.2 s.parent idx before

/-- The while loop of btree.cpp 265-268: walk rightmost children to a
leaf. -/
def walkRightmostH : Nat → HState → Nat → Except HErr Nat
  | 0, _, _ => .error .fuel
  | f + 1, st, nid => do
    let n ← getN st nid
    if n.is_leaf then .ok nid
    else do
      let c ← vBack n.children
      walkRightmostH f st c

/-- The while loop of btree.cpp 276-280: walk leftmost children to a leaf,
pushing child index 0 at each step. -/
def walkLeftmostH : Nat → HState → Nat → List Nat →
    Except HErr (Nat × List Nat)
  | 0, _, _, _ => .error .fuel
  | f + 1, st, nid, acc => do
    let n ← getN st nid
    if n.is_leaf then .ok (nid, acc)
    else do
      let c ← vFront n.children
      walkLeftmostH f st c (acc ++ [0])

/-- BTree::remove_from_inner (btree.cpp 255-298): replace the entry by the
predecessor (back of the rightmost leaf of the left child) when that leaf
has surplus entries, otherwise by the successor (front of the leftmost
leaf of the right child), deleting the successor from its leaf directly on
surplus and through remove_from_leaf otherwise. -/
def remove_from_innerH (fuel : Nat) (st : HState) (sid : Nat) (idx : Nat)
    (before : List Nat) : Except HErr HState := do
  let s ← getN st sid
  let lm0 ← vGet s.children idx
  let rm0 ← vGet s.children (idx + 1)
  let before1 := before ++ [idx + 1]
  let lm ← walkRightmostH fuel st lm0
  let ln ← getN st lm
  if (st.order - 1) / 2 < ln.elements.length then do
    let lb ← vBack ln.elements
    let s2 ← getN st sid
    let ses ← vSet s2.elements idx lb
    let st1 ← setN st sid { s2 with elements := ses }
    let ln2 ← getN st1 lm
    if ln2.elements.isEmpty then .error .emptyVec
    else setN st1 lm { ln2 with elements := ln2.elements.dropLast }
  else do
    let res ← walkLeftmostH fuel st rm0 before1
    let rm := res.1
    let before2 := res.2
    let rn ← getN st rm
    if (st.order - 1) / 2 < rn.elements.length then do
      let rf ← vFront rn.elements
      let s2 ← getN st sid
      let ses ← vSet s2.elements idx rf
      let st1 ← setN st sid { s2 with elements := ses }
      let rn2 ← getN st1 rm
      let res3 ← vErase rn2.elements 0
      setN st1 rm { rn2 with elements := res3 }
    else do
      let rf ← vFront rn.elements
      let s2 ← getN st sid
      let ses ← vSet s2.elements idx rf
      let st1 ← setN st sid { s2 with elements := ses }
      remove_from_leafH st1 rm 0 before2

/-- Private recursive remove (btree.cpp 301-332): on a key match dispatch
to the leaf or inner handler, then push the index and keep descending
whenever the node is not a leaf. -/
def removeRecH : Nat → HState → Nat → Int → List Nat → Except HErr HState
  | 0, _, _, _, _ => .error .fuel
  | fuel + 1, st, sid, k, before => do
    let s ← getN st sid
    let i := insertion_idx s.elements k
    let st1 ←
      if i < s.elements.length ∧ (s.elements.getD i default).key = k then
        if s.is_leaf then remove_from_leafH st sid i before
        else remove_from_innerH fuel st sid i before
      else .ok st
    let before2 := before ++ [i]
    let s2 ← getN st1 sid
    if s2.is_leaf then .ok st1
    else do
      let cid ← vGet s2.children i
      removeRecH fuel st1 cid k before2

/-- Public remove (btree.cpp 32-40): no-op on an empty tree. -/
def removeH (st : HState) (k : Int) : Except HErr HState :=
  match st.root with
  | none => .ok st
  | some rid => removeRecH (st.nodes.length + 1) st rid k []

/-- A fresh empty heap tree of the given order. -/
def hNew (order : Nat) : HState := ⟨order, [], none⟩

/-- Bulk insert driver on the heap (the do_inserts loop of
test_btree.cpp). -/
def insertManyH (st : HState) : List (Int × Int) → Except HErr HState
  | [] => .ok st
  | p :: ps => do
    let st1 ← insertH st p.1 p.2
    insertManyH st1 ps

/-- Bulk remove driver on the heap (the do_removes loop of
test_btree.cpp). -/
def removeManyH (st : HState) : List Int → Except HErr HState
  | [] => .ok st
  | k :: ks => do
    let st1 ← removeH st k
    removeManyH st1 ks

set_option maxRecDepth 100000 in
/-- C2: the spec's own removal scenario fails on the code.  With order 3,
after inserting keys 39,4,5,52,99,23,16,9,55,85,100,44,33,101 (value =
key), removing 23 succeeds but removing 16 performs an out-of-bounds
vector erase: remove_and_reconstruct erases parent->elements at
before_idx - 1 with before_idx = 0 (btree.cpp line 183, size_t
wrap-around), so the removal sequence crashes instead of keeping the tree
valid with all retained keys found. -/
theorem c2_remove_scenario_out_of_bounds :
    (do
      let st ← insertManyH (hNew 3)
        [(39, 39), (4, 4), (5, 5), (52, 52), (99, 99), (23, 23), (16, 16),
         (9, 9), (55, 55), (85, 85), (100, 100), (44, 44), (33, 33),
         (101, 101)]
      let st1 ← removeH st 23
      removeH st1 16 : Except HErr HState) = .error .oob := by
  rfl

/-- C3: removing the only key of a tree whose root is a leaf at or below
minimum occupancy does not succeed: remove_from_leaf takes the underflow
branch, calls back() on the empty path-index vector and passes the root's
null parent to borrow_from_sibilings (btree.cpp line 241), instead of
simply erasing from the exempt root.  Shown both on remove_from_leaf
itself and on the public pipeline insert (5,5) then remove 5. -/
theorem c3_remove_root_leaf_crashes :
    remove_from_leafH ⟨3, [⟨true, [⟨5, 5⟩], [], none⟩], some 0⟩ 0 0 [] =
      .error .emptyVec ∧
    (do
      let st ← insertH (hNew 3) 5 5
      removeH st 5 : Except HErr HState) = .error .emptyVec := by
  constructor
  · rfl
  · rfl

/-- C4: the right-borrow path of borrow_from_sibilings does not implement
the symmetric rule: on the state with root [2] over leaves [1] and [3, 4]
(obtained by inserting 1,2,3,4 at order 3), removing 1 should borrow the
right sibling's smallest entry through the separator, but line 105 reads
parent->elements[before_idx + 1] (out of bounds for the one-entry root) and
line 106 would read the uninitialised left_sibiling pointer.  Shown on
borrow_from_sibilings itself and on the public pipeline. -/
theorem c4_right_borrow_crashes :
    borrow_from_sibilingsH
      ⟨3, [⟨true, [⟨1, 1⟩], [], some 1⟩,
           ⟨false, [⟨2, 2⟩], [0, 2], none⟩,
           ⟨true, [⟨3, 3⟩, ⟨4, 4⟩], [], some 1⟩], some 1⟩
      (some 1) 0 0 = .error .oob ∧
    (do
      let st ← insertManyH (hNew 3) [(1, 1), (2, 2), (3, 3), (4, 4)]
      removeH st 1 : Except HErr HState) = .error .oob := by
  constructor
  · rfl
  · rfl

/-- C7: the root-collapse case crashes before it can promote the last
child: removing 1 from the order-3 tree with root [2] over leaves [1] and
[3] (built by inserting 1,2,3) reaches remove_and_reconstruct with
before_idx = 0, whose line 183 erases parent->elements at the wrapped
size_t index before_idx - 1, an out-of-bounds erase; the tree is never
emptied down to a null root.  Shown on remove_and_reconstruct itself and
on the public pipeline. -/
theorem c7_root_collapse_crashes :
    remove_and_reconstructH
      ⟨3, [⟨true, [⟨1, 1⟩], [], some 1⟩,
           ⟨false, [⟨2, 2⟩], [0, 2], none⟩,
           ⟨true, [⟨3, 3⟩], [], some 1⟩], some 1⟩
      (some 1) 0 [0] = .error .oob ∧
    (do
      let st ← insertManyH (hNew 3) [(1, 1), (2, 2), (3, 3)]
      removeH st 1 : Except HErr HState) = .error .oob := by
  constructor
  · rfl
  · rfl

theorem getN_eq {st : HState} {i : Nat} {n : HNode} (h : st.nodes[i]? = some n) :
    getN st i = .ok n := by
  simp [getN, getNode, h]

theorem setN_ok {st : HState} {i : Nat} (n : HNode) (h : i < st.nodes.length) :
    setN st i n = .ok { st with nodes := st.nodes.set i n } := by
  simp [setN, h]

theorem lt_of_getElem?_some {α : Type} {l : List α} {i : Nat} {a : α}
    (h : l[i]? = some a) : i < l.length := by
  by_contra hc
  rw [List.getElem?_eq_none (by omega)] at h
  cases h

theorem reparentAll_ok {st : HState} {ids : List Nat} {pid : Nat}
    (hvalid : ∀ g ∈ ids, g < st.nodes.length) (hnd : ids.Nodup) :
    ∃ st', reparentAll st ids pid = .ok st' ∧
      st'.order = st.order ∧ st'.root = st.root ∧
      st'.nodes.length = st.nodes.length ∧
      (∀ j, j ∉ ids → st'.nodes[j]? = st.nodes[j]?) ∧
      (∀ g ∈ ids, ∃ gn, st.nodes[g]? = some gn ∧
        st'.nodes[g]? = some { gn with parent := some pid }) := by
  induction ids generalizing st with
  | nil => exact ⟨st, rfl, rfl, rfl, rfl, fun _ _ => rfl, fun g hg => absurd hg (by simp)⟩
  | cons g gs ih =>
    have hglt : g < st.nodes.length := hvalid g (by simp)
    obtain ⟨gn, hgn⟩ : ∃ gn, st.nodes[g]? = some gn := by
      rw [List.getElem?_eq_getElem hglt]
      exact ⟨_, rfl⟩
    have hrun1 : reparentAll st (g :: gs) pid =
        reparentAll { st with nodes := st.nodes.set g { gn with parent := some pid } }
          gs pid := by
      rw [reparentAll]
      rw [getN_eq hgn]
      show (do
        let st1 ← setN st g { gn with parent := some pid }
        reparentAll st1 gs pid) = _
      rw [setN_ok _ hglt]
      rfl
    obtain ⟨st', hrun2, hord, hroot, hlen, hother, hmem⟩ :=
      @ih { st with nodes := st.nodes.set g { gn with parent := some pid } }
        (by intro x hx; simp only [List.length_set]; exact hvalid x (by simp [hx]))
        hnd.of_cons
    refine ⟨st', hrun1.trans hrun2, hord, hroot, by simpa using hlen, ?_, ?_⟩
    · intro j hj
      rw [hother j (fun hx => hj (by simp [hx]))]
      exact List.getElem?_set_ne (fun hx => hj (by simp [hx]))
    · intro x hx
      rcases List.mem_cons.mp hx with rfl | hx'
      · refine ⟨gn, hgn, ?_⟩
        have hninl : x ∉ gs := (List.nodup_cons.mp hnd).1
        rw [hother x hninl]
        exact List.getElem?_set_self (by simpa using hglt)
      · obtain ⟨gn', hgn'1, hgn'2⟩ := hmem x hx'
        refine ⟨gn', ?_, hgn'2⟩
        have hxg : g ≠ x := by
          rintro rfl
          exact (List.nodup_cons.mp hnd).1 hx'
        rw [← hgn'1]
        exact (List.getElem?_set_ne hxg).symm

theorem ok_bind {α β : Type} (a : α) (f : α → Except HErr β) :
    (Except.ok a >>= f) = f a := rfl

theorem vGet_eq {α : Type} {l : List α} {i : Nat} {x : α} (h : l[i]? = some x) :
    vGet l i = .ok x := by
  simp [vGet, h]

theorem vInsert_ok {α : Type} {l : List α} {i : Nat} (x : α) (h : i ≤ l.length) :
    vInsert l i x = .ok (l.insertIdx i x) := by
  simp [vInsert, h]

/-- C5: split_child(parent, child_idx) on a child holding at least order
entries (order >= 1, sane heap: parent/child distinct live nodes, the
grandchild list has valid distinct addresses not aliasing parent or child)
computes mid = (elements.len - 1) / 2 and mid_children = children.len / 2,
inserts elements[mid] into the parent's elements at child_idx and the new
sibling's address at child_idx + 1 of its children, leaves the child the
entries before mid and the children before mid_children, gives the sibling
the entries strictly after mid and the children from mid_children on, sets
the parent pointers of both halves to the parent, re-parents transferred
grandchildren to the sibling and kept grandchildren to the child, and
touches no other node. -/
theorem split_childH_spec
    (st : HState) (pid ci : Nat) (p : HNode) (cid : Nat) (child : HNode)
    (hp : st.nodes[pid]? = some p)
    (hcid : p.children[ci]? = some cid)
    (hchild : st.nodes[cid]? = some child)
    (hne : pid ≠ cid)
    (horder : 1 ≤ st.order)
    (hlen : st.order ≤ child.elements.length)
    (hci : ci ≤ p.elements.length)
    (hgv : ∀ g ∈ child.children, g < st.nodes.length)
    (hgnd : child.children.Nodup)
    (hpg : pid ∉ child.children)
    (hcg : cid ∉ child.children) :
    ∃ st',
      split_childH st (some pid) ci = .ok st' ∧
      st'.order = st.order ∧ st'.root = st.root ∧
      st'.nodes.length = st.nodes.length + 1 ∧
      st'.nodes[pid]? = some ⟨p.is_leaf,
        p.elements.insertIdx ci
          (child.elements.getD ((child.elements.length - 1) / 2) default),
        p.children.insertIdx (ci + 1) st.nodes.length, p.parent⟩ ∧
      st'.nodes[cid]? = some ⟨child.is_leaf,
        child.elements.take ((child.elements.length - 1) / 2),
        child.children.take (child.children.length / 2), some pid⟩ ∧
      st'.nodes[st.nodes.length]? = some ⟨child.is_leaf,
        child.elements.drop ((child.elements.length - 1) / 2 + 1),
        child.children.drop (child.children.length / 2), some pid⟩ ∧
      (∀ g ∈ child.children.drop (child.children.length / 2), ∃ gn,
        st.nodes[g]? = some gn ∧
        st'.nodes[g]? = some { gn with parent := some st.nodes.length }) ∧
      (∀ g ∈ child.children.take (child.children.length / 2), ∃ gn,
        st.nodes[g]? = some gn ∧
        st'.nodes[g]? = some { gn with parent := some cid }) ∧
      (∀ j, j ≠ pid → j ≠ cid → j ≠ st.nodes.length →
        j ∉ child.children → st'.nodes[j]? = st.nodes[j]?) := by
  have hplt : pid < st.nodes.length := lt_of_getElem?_some hp
  have hclt : cid < st.nodes.length := lt_of_getElem?_some hchild
  have hcilt : ci < p.children.length := lt_of_getElem?_some hcid
  have hne0 : ¬ (child.elements.length = 0) := by omega
  have hmedlt : (child.elements.length - 1) / 2 < child.elements.length := by omega
  obtain ⟨med, hmed⟩ : ∃ med,
      child.elements[(child.elements.length - 1) / 2]? = some med := by
    rw [List.getElem?_eq_getElem hmedlt]; exact ⟨_, rfl⟩
  have hmedD : child.elements.getD ((child.elements.length - 1) / 2) default = med := by
    rw [List.getD_eq_getElem?_getD, hmed]; rfl
  have hp1 : getN ⟨st.order,
      st.nodes ++ [(⟨child.is_leaf, [], [], none⟩ : HNode)], st.root⟩ pid = .ok p :=
    getN_eq (by rw [List.getElem?_append_left hplt]; exact hp)
  have hset2 : setN ⟨st.order,
        st.nodes ++ [(⟨child.is_leaf, [], [], none⟩ : HNode)], st.root⟩ pid
        ⟨p.is_leaf, p.elements.insertIdx ci med,
          p.children.insertIdx (ci + 1) st.nodes.length, p.parent⟩ =
      .ok ⟨st.order, (st.nodes ++ [(⟨child.is_leaf, [], [], none⟩ : HNode)]).set pid
        ⟨p.is_leaf, p.elements.insertIdx ci med,
          p.children.insertIdx (ci + 1) st.nodes.length, p.parent⟩, st.root⟩ :=
    setN_ok _ (by simp only [List.length_append, List.length_singleton]; omega)
  have hget2 : getN ⟨st.order,
        (st.nodes ++ [(⟨child.is_leaf, [], [], none⟩ : HNode)]).set pid
        ⟨p.is_leaf, p.elements.insertIdx ci med,
          p.children.insertIdx (ci + 1) st.nodes.length, p.parent⟩, st.root⟩ cid =
      .ok child :=
    getN_eq (by
      rw [List.getElem?_set_ne hne, List.getElem?_append_left hclt]
      exact hchild)
  have hset3 : setN ⟨st.order,
        (st.nodes ++ [(⟨child.is_leaf, [], [], none⟩ : HNode)]).set pid
        ⟨p.is_leaf, p.elements.insertIdx ci med,
          p.children.insertIdx (ci + 1) st.nodes.length, p.parent⟩, st.root⟩
        st.nodes.length
        ⟨child.is_leaf, child.elements.drop ((child.elements.length - 1) / 2 + 1),
          child.children.drop (child.children.length / 2), some pid⟩ =
      .ok ⟨st.order, ((st.nodes ++ [(⟨child.is_leaf, [], [], none⟩ : HNode)]).set pid
        ⟨p.is_leaf, p.elements.insertIdx ci med,
          p.children.insertIdx (ci + 1) st.nodes.length, p.parent⟩).set st.nodes.length
        ⟨child.is_leaf, child.elements.drop ((child.elements.length - 1) / 2 + 1),
          child.children.drop (child.children.length / 2), some pid⟩, st.root⟩ :=
    setN_ok _ (by simp)
  have hlen3 : (((st.nodes ++ [(⟨child.is_leaf, [], [], none⟩ : HNode)]).set pid
        ⟨p.is_leaf, p.elements.insertIdx ci med,
          p.children.insertIdx (ci + 1) st.nodes.length, p.parent⟩).set st.nodes.length
        ⟨child.is_leaf, child.elements.drop ((child.elements.length - 1) / 2 + 1),
          child.children.drop (child.children.length / 2), some pid⟩).length =
      st.nodes.length + 1 := by
    simp
  have hst3at : ∀ j, j ≠ pid → j ≠ st.nodes.length →
      (((st.nodes ++ [(⟨child.is_leaf, [], [], none⟩ : HNode)]).set pid
        ⟨p.is_leaf, p.elements.insertIdx ci med,
          p.children.insertIdx (ci + 1) st.nodes.length, p.parent⟩).set st.nodes.length
        ⟨child.is_leaf, child.elements.drop ((child.elements.length - 1) / 2 + 1),
          child.children.drop (child.children.length / 2), some pid⟩)[j]? =
      st.nodes[j]? := by
    intro j hjp hjn
    rw [List.getElem?_set_ne (Ne.symm hjn), List.getElem?_set_ne (Ne.symm hjp)]
    rcases Nat.lt_or_ge j st.nodes.length with h | h
    · exact List.getElem?_append_left h
    · rw [List.getElem?_eq_none (by simp only [List.length_append, List.length_singleton]; omega),
        List.getElem?_eq_none (by omega)]
  have hst3pid :
      (((st.nodes ++ [(⟨child.is_leaf, [], [], none⟩ : HNode)]).set pid
        ⟨p.is_leaf, p.elements.insertIdx ci med,
          p.children.insertIdx (ci + 1) st.nodes.length, p.parent⟩).set st.nodes.length
        ⟨child.is_leaf, child.elements.drop ((child.elements.length - 1) / 2 + 1),
          child.children.drop (child.children.length / 2), some pid⟩)[pid]? =
      some ⟨p.is_leaf, p.elements.insertIdx ci med,
        p.children.insertIdx (ci + 1) st.nodes.length, p.parent⟩ := by
    rw [List.getElem?_set_ne (by omega : st.nodes.length ≠ pid)]
    exact List.getElem?_set_self (by simp only [List.length_append, List.length_singleton]; omega)
  have hst3nid :
      (((st.nodes ++ [(⟨child.is_leaf, [], [], none⟩ : HNode)]).set pid
        ⟨p.is_leaf, p.elements.insertIdx ci med,
          p.children.insertIdx (ci + 1) st.nodes.length, p.parent⟩).set st.nodes.length
        ⟨child.is_leaf, child.elements.drop ((child.elements.length - 1) / 2 + 1),
          child.children.drop (child.children.length / 2), some pid⟩)[st.nodes.length]? =
      some ⟨child.is_leaf, child.elements.drop ((child.elements.length - 1) / 2 + 1),
          child.children.drop (child.children.length / 2), some pid⟩ :=
    List.getElem?_set_self (by simp)
  have hst3cid :
      (((st.nodes ++ [(⟨child.is_leaf, [], [], none⟩ : HNode)]).set pid
        ⟨p.is_leaf, p.elements.insertIdx ci med,
          p.children.insertIdx (ci + 1) st.nodes.length, p.parent⟩).set st.nodes.length
        ⟨child.is_leaf, child.elements.drop ((child.elements.length - 1) / 2 + 1),
          child.children.drop (child.children.length / 2), some pid⟩)[cid]? =
      some child := by
    rw [hst3at cid (Ne.symm hne) (by omega)]; exact hchild
  have hdisj : List.Disjoint (child.children.take (child.children.length / 2))
      (child.children.drop (child.children.length / 2)) := by
    apply List.disjoint_of_nodup_append
    rw [List.take_append_drop]; exact hgnd
  obtain ⟨st4, hr4, hord4, hroot4, hlen4, hother4, hmem4⟩ :=
    @reparentAll_ok
      ⟨st.order, ((st.nodes ++ [(⟨child.is_leaf, [], [], none⟩ : HNode)]).set pid
        ⟨p.is_leaf, p.elements.insertIdx ci med,
          p.children.insertIdx (ci + 1) st.nodes.length, p.parent⟩).set st.nodes.length
        ⟨child.is_leaf, child.elements.drop ((child.elements.length - 1) / 2 + 1),
          child.children.drop (child.children.length / 2), some pid⟩, st.root⟩
      (child.children.drop (child.children.length / 2)) st.nodes.length
      (by
        intro g hg
        have := hgv g (List.mem_of_mem_drop hg)
        simp only [hlen3]
        omega)
      (hgnd.sublist (List.drop_sublist _ _))
  have hlen4b : st4.nodes.length = st.nodes.length + 1 := by
    rw [hlen4]; exact hlen3
  have hget4 : getN st4 cid = .ok child :=
    getN_eq (by
      rw [hother4 cid (fun hx => hcg (List.mem_of_mem_drop hx))]
      exact hst3cid)
  have hset5 : setN st4 cid
        ⟨child.is_leaf, child.elements.take ((child.elements.length - 1) / 2),
          child.children.take (child.children.length / 2), some pid⟩ =
      .ok { st4 with nodes := (st4.nodes.set cid
        ⟨child.is_leaf, child.elements.take ((child.elements.length - 1) / 2),
          child.children.take (child.children.length / 2), some pid⟩) } :=
    setN_ok _ (by omega)
  obtain ⟨st', hr5, hord5, hroot5, hlen5, hother5, hmem5⟩ :=
    @reparentAll_ok
      { st4 with nodes := (st4.nodes.set cid
        ⟨child.is_leaf, child.elements.take ((child.elements.length - 1) / 2),
          child.children.take (child.children.length / 2), some pid⟩) }
      (child.children.take (child.children.length / 2)) cid
      (by
        intro g hg
        have := hgv g (List.mem_of_mem_take hg)
        simp only [List.length_set]
        omega)
      (hgnd.sublist (List.take_sublist _ _))
  have hstep : split_childH st (some pid) ci = .ok st' := by
    rw [split_childH]
    simp only [getN_eq hp, ok_bind, vGet_eq hcid, getN_eq hchild, allocNode,
      if_neg hne0, vGet_eq hmed, hp1, vInsert_ok med hci,
      vInsert_ok st.nodes.length (by omega : ci + 1 ≤ p.children.length),
      hset2, hget2, hset3, hr4, hget4, hset5, hr5]
  have hpidT : pid ∉ child.children.take (child.children.length / 2) :=
    fun hx => hpg (List.mem_of_mem_take hx)
  have hpidD : pid ∉ child.children.drop (child.children.length / 2) :=
    fun hx => hpg (List.mem_of_mem_drop hx)
  have hcidT : cid ∉ child.children.take (child.children.length / 2) :=
    fun hx => hcg (List.mem_of_mem_take hx)
  have hcidD : cid ∉ child.children.drop (child.children.length / 2) :=
    fun hx => hcg (List.mem_of_mem_drop hx)
  have hnidT : st.nodes.length ∉ child.children.take (child.children.length / 2) :=
    fun hx => absurd (hgv _ (List.mem_of_mem_take hx)) (by omega)
  have hnidD : st.nodes.length ∉ child.children.drop (child.children.length / 2) :=
    fun hx => absurd (hgv _ (List.mem_of_mem_drop hx)) (by omega)
  refine ⟨st', hstep, ?_, ?_, ?_, ?_, ?_, ?_, ?_, ?_, ?_⟩
  · simp only [hord5, hord4]
  · simp only [hroot5, hroot4]
  · simp only [hlen5, List.length_set, hlen4, hlen3]
  · simp only [hother5 pid hpidT, List.getElem?_set_ne (Ne.symm hne),
      hother4 pid hpidD, hst3pid, hmedD]
  · simp only [hother5 cid hcidT]
    exact List.getElem?_set_self (by omega)
  · simp only [hother5 st.nodes.length hnidT,
      List.getElem?_set_ne (show cid ≠ st.nodes.length by omega),
      hother4 st.nodes.length hnidD, hst3nid]
  · intro g hg
    have hgc := List.mem_of_mem_drop hg
    have hglt2 := hgv g hgc
    have hcidg : cid ≠ g := fun hh => hcg (by rw [hh]; exact hgc)
    obtain ⟨gn3, h1, h2⟩ := hmem4 g hg
    refine ⟨gn3, ?_, ?_⟩
    · rw [← hst3at g (fun hh => hpg (by rw [← hh]; exact hgc)) (by omega)]
      exact h1
    · simp only [hother5 g (fun hx => hdisj hx hg), List.getElem?_set_ne hcidg]
      exact h2
  · intro g hg
    have hgc := List.mem_of_mem_take hg
    have hglt2 := hgv g hgc
    have hcidg : cid ≠ g := fun hh => hcg (by rw [hh]; exact hgc)
    obtain ⟨gn5, h1, h2⟩ := hmem5 g hg
    simp only [List.getElem?_set_ne hcidg,
      hother4 g (fun hx => hdisj hg hx),
      hst3at g (fun hh => hpg (by rw [← hh]; exact hgc)) (by omega)] at h1
    exact ⟨gn5, h1, h2⟩
  · intro j hjp hjc hjn hjm
    simp only [hother5 j (fun hx => hjm (List.mem_of_mem_take hx)),
      List.getElem?_set_ne (Ne.symm hjc),
      hother4 j (fun hx => hjm (List.mem_of_mem_drop hx)),
      hst3at j hjp hjn]

/-- Witness for C5: order 3, parent [10] with one full leaf child
[1,2,3]; the split promotes 2 and leaves leaves [1] and [3]. -/
theorem c5_witness :
    ∃ st',
      split_childH ⟨3, [⟨false, [⟨10, 10⟩], [1], none⟩,
        ⟨true, [⟨1, 1⟩, ⟨2, 2⟩, ⟨3, 3⟩], [], some 0⟩], some 0⟩ (some 0) 0 = .ok st' ∧
      st'.order = 3 ∧ st'.root = some 0 ∧
      st'.nodes.length = 3 ∧
      st'.nodes[0]? = some ⟨false, [⟨2, 2⟩, ⟨10, 10⟩], [1, 2], none⟩ ∧
      st'.nodes[1]? = some ⟨true, [⟨1, 1⟩], [], some 0⟩ ∧
      st'.nodes[2]? = some ⟨true, [⟨3, 3⟩], [], some 0⟩ ∧
      (∀ g ∈ ([] : List Nat), ∃ gn,
        ([⟨false, [⟨10, 10⟩], [1], none⟩,
          (⟨true, [⟨1, 1⟩, ⟨2, 2⟩, ⟨3, 3⟩], [], some 0⟩ : HNode)])[g]? = some gn ∧
        st'.nodes[g]? = some { gn with parent := some 2 }) ∧
      (∀ g ∈ ([] : List Nat), ∃ gn,
        ([⟨false, [⟨10, 10⟩], [1], none⟩,
          (⟨true, [⟨1, 1⟩, ⟨2, 2⟩, ⟨3, 3⟩], [], some 0⟩ : HNode)])[g]? = some gn ∧
        st'.nodes[g]? = some { gn with parent := some 1 }) ∧
      (∀ j, j ≠ 0 → j ≠ 1 → j ≠ 2 → j ∉ ([] : List Nat) →
        st'.nodes[j]? = ([⟨false, [⟨10, 10⟩], [1], none⟩,
          (⟨true, [⟨1, 1⟩, ⟨2, 2⟩, ⟨3, 3⟩], [], some 0⟩ : HNode)])[j]?) :=
  split_childH_spec
    ⟨3, [⟨false, [⟨10, 10⟩], [1], none⟩,
      ⟨true, [⟨1, 1⟩, ⟨2, 2⟩, ⟨3, 3⟩], [], some 0⟩], some 0⟩
    0 0 ⟨false, [⟨10, 10⟩], [1], none⟩ 1
    ⟨true, [⟨1, 1⟩, ⟨2, 2⟩, ⟨3, 3⟩], [], some 0⟩
    (by decide) (by decide) (by decide) (by decide) (by decide) (by decide)
    (by decide) (by decide) (by decide) (by decide) (by decide)
/-- Shape of a live subtree of height at most h on the heap: every address
dereferences, and every internal node has one more child than entries. -/
def hGoodH (st : HState) : Nat → Nat → Bool
  | 0, sid =>
    match st.nodes[sid]? with
    | none => false
    | some n => n.is_leaf
  | h + 1, sid =>
    match st.nodes[sid]? with
    | none => false
    | some n =>
      n.is_leaf || ((n.children.length = n.elements.length + 1) &&
        n.children.all (fun c => hGoodH st h c))

/-- The keys stored in a heap subtree of height at most h. -/
def hKeysH (st : HState) : Nat → Nat → List Int
  | 0, sid =>
    match st.nodes[sid]? with
    | none => []
    | some n => n.elements.map DataPair.key
  | h + 1, sid =>
    match st.nodes[sid]? with
    | none => []
    | some n =>
      n.elements.map DataPair.key ++
        (if n.is_leaf then []
         else (n.children.map (fun c => hKeysH st h c)).flatten)

theorem removeRecH_absent (h : Nat) (st : HState) (sid : Nat) (k : Int)
    (before : List Nat) (fuel : Nat)
    (hg : hGoodH st h sid = true) (habs : k ∉ hKeysH st h sid)
    (hfuel : h < fuel) :
    removeRecH fuel st sid k before = .ok st := by
  induction h generalizing sid before fuel with
  | zero =>
    obtain ⟨f, rfl⟩ : ∃ f, fuel = f + 1 := ⟨fuel - 1, by omega⟩
    rw [hGoodH] at hg
    rw [hKeysH] at habs
    rcases hn : st.nodes[sid]? with _ | n
    · rw [hn] at hg; cases hg
    · rw [hn] at hg habs
      have hleaf : n.is_leaf = true := hg
      have hnk : ¬ (insertion_idx n.elements k < n.elements.length ∧
          (n.elements.getD (insertion_idx n.elements k) default).key = k) := by
        rintro ⟨h1, h2⟩
        exact idx_key_ne_of_not_mem habs h1 h2
      rw [removeRecH.eq_def]
      simp only [getN_eq hn, ok_bind, if_neg hnk, hleaf, if_true]
  | succ h ih =>
    obtain ⟨f, rfl⟩ : ∃ f, fuel = f + 1 := ⟨fuel - 1, by omega⟩
    rw [hGoodH] at hg
    rw [hKeysH] at habs
    rcases hn : st.nodes[sid]? with _ | n
    · rw [hn] at hg; cases hg
    · rw [hn] at hg habs
      have hnk : ¬ (insertion_idx n.elements k < n.elements.length ∧
          (n.elements.getD (insertion_idx n.elements k) default).key = k) := by
        rintro ⟨h1, h2⟩
        refine idx_key_ne_of_not_mem ?_ h1 h2
        intro hx; exact habs (List.mem_append_left _ hx)
      rw [removeRecH.eq_def]
      rcases hlf : n.is_leaf with _ | _
      · -- internal node: shape plus recursion into the chosen child
        simp only [hlf, Bool.false_or, Bool.and_eq_true, List.all_eq_true,
          decide_eq_true_eq] at hg
        obtain ⟨hshape, hall⟩ := hg
        have hilt : insertion_idx n.elements k < n.children.length := by
          have := insertion_idx_le n.elements k
          omega
        obtain ⟨cid, hcid⟩ : ∃ cid,
            n.children[insertion_idx n.elements k]? = some cid := by
          rw [List.getElem?_eq_getElem hilt]; exact ⟨_, rfl⟩
        have hcmem : cid ∈ n.children := by
          exact List.getElem?_mem hcid
        have hck : k ∉ hKeysH st h cid := by
          intro hx
          refine habs (List.mem_append_right _ ?_)
          rw [if_neg (by rw [hlf]; exact Bool.false_ne_true)]
          exact List.mem_flatten.mpr ⟨hKeysH st h cid,
            List.mem_map.mpr ⟨cid, hcmem, rfl⟩, hx⟩
        simp only [getN_eq hn, ok_bind, if_neg hnk, hlf, vGet_eq hcid,
          Bool.false_eq_true, if_false]
        exact ih cid (before ++ [insertion_idx n.elements k]) f
          (hall cid hcmem) hck (by omega)
      · -- a leaf of positive height bound: returns immediately
        simp only [getN_eq hn, ok_bind, if_neg hnk, hlf, if_true]

/-- C9: removing an absent key is a no-op.  For the empty tree and for any
rooted tree whose root is a live subtree of height at most the arena size
not containing k, remove returns the state unchanged (hence is_valid and
every other observation of the tree are unchanged). -/
theorem c9_remove_absent_noop (st : HState) (k : Int) (h : Nat)
    (hroot : ∀ rid, st.root = some rid →
      h ≤ st.nodes.length ∧ hGoodH st h rid = true ∧ k ∉ hKeysH st h rid) :
    removeH st k = .ok st := by
  rw [removeH]
  rcases hr : st.root with _ | rid
  · rfl
  · obtain ⟨hh, hg, habs⟩ := hroot rid hr
    exact removeRecH_absent h st rid k [] (st.nodes.length + 1) hg habs (by omega)
/-- Witness for C9: removing absent key 99 from a two-level tree with keys
1, 2, 3 returns the identical heap. -/
theorem c9_witness :
    removeH ⟨3, [⟨false, [⟨2, 2⟩], [1, 2], none⟩,
      ⟨true, [⟨1, 1⟩], [], some 0⟩,
      ⟨true, [⟨3, 3⟩], [], some 0⟩], some 0⟩ 99 =
    .ok ⟨3, [⟨false, [⟨2, 2⟩], [1, 2], none⟩,
      ⟨true, [⟨1, 1⟩], [], some 0⟩,
      ⟨true, [⟨3, 3⟩], [], some 0⟩], some 0⟩ :=
  c9_remove_absent_noop
    ⟨3, [⟨false, [⟨2, 2⟩], [1, 2], none⟩,
      ⟨true, [⟨1, 1⟩], [], some 0⟩,
      ⟨true, [⟨3, 3⟩], [], some 0⟩], some 0⟩ 99 1
    (by intro rid hr; cases hr; exact ⟨by decide, by decide, by decide⟩)

/-- Bool rendering of ChainBnd: entries strictly ascending by key inside
(lo, hi). -/
def chainB : Option Int → Option Int → List DataPair → Bool
  | _, _, [] => true
  | lo, hi, e :: es =>
    decide (oLT lo e.key) && decide (oGT hi e.key) && chainB (some e.key) hi es

/-- One sorted layer of an internal node: children interleave with the
separator entries, each child satisfying f strictly between its adjacent
separators. -/
def seqB (f : Nat → Option Int → Option Int → Bool) :
    Option Int → Option Int → List DataPair → List Nat → Bool
  | lo, hi, [], [c] => f c lo hi
  | lo, hi, e :: es, c :: cs =>
    decide (oLT lo e.key) && decide (oGT hi e.key) && f c lo (some e.key) &&
      seqB f (some e.key) hi es cs
  | _, _, _, _ => false

/-- Ordered live subtree of height at most h on the heap: every address
dereferences, every node is non-empty, keys are strictly sorted with the
B-tree separator structure, all inside (lo, hi). -/
def hOrdH (st : HState) : Nat → Nat → Option Int → Option Int → Bool
  | 0, sid, lo, hi =>
    match st.nodes[sid]? with
    | none => false
    | some n => n.is_leaf && !n.elements.isEmpty && chainB lo hi n.elements
  | h + 1, sid, lo, hi =>
    match st.nodes[sid]? with
    | none => false
    | some n =>
      if n.is_leaf then !n.elements.isEmpty && chainB lo hi n.elements
      else !n.elements.isEmpty &&
        seqB (fun c lo2 hi2 => hOrdH st h c lo2 hi2) lo hi n.elements n.children

/-- The arena addresses of the nodes of a heap subtree. -/
def hAddrsH (st : HState) : Nat → Nat → List Nat
  | 0, sid => [sid]
  | h + 1, sid =>
    match st.nodes[sid]? with
    | none => [sid]
    | some n =>
      sid :: (if n.is_leaf then []
        else (n.children.map (fun c => hAddrsH st h c)).flatten)

theorem vBack_eq {α : Type} {l : List α} {x : α} (h : l.getLast? = some x) :
    vBack l = .ok x := by
  simp [vBack, h]

theorem vFront_eq {α : Type} {l : List α} {x : α} (h : l.head? = some x) :
    vFront l = .ok x := by
  simp [vFront, h]

theorem vSet_ok {α : Type} {l : List α} {i : Nat} (x : α) (h : i < l.length) :
    vSet l i x = .ok (l.set i x) := by
  simp [vSet, h]

theorem vErase_ok {α : Type} {l : List α} {i : Nat} (h : i < l.length) :
    vErase l i = .ok (l.eraseIdx i) := by
  simp [vErase, h]

theorem chainB_sound : ∀ {es : List DataPair} {lo hi : Option Int},
    chainB lo hi es = true → ChainBnd lo hi es := by
  intro es
  induction es with
  | nil => intro lo hi _; trivial
  | cons e es ih =>
    intro lo hi hc
    simp only [chainB, Bool.and_eq_true, decide_eq_true_eq] at hc
    exact ⟨hc.1.1, hc.1.2, ih hc.2⟩

theorem chain_last_max : ∀ {es : List DataPair} {lo hi : Option Int},
    ChainBnd lo hi es → ∀ {last : DataPair}, es.getLast? = some last →
    ∀ e ∈ es, e.key ≤ last.key := by
  intro es
  induction es with
  | nil => intro lo hi _ last hl; cases hl
  | cons e0 es ih =>
    intro lo hi hc last hl e he
    cases es with
    | nil =>
      simp only [List.getLast?_singleton, Option.some.injEq] at hl
      rcases List.mem_singleton.mp he with rfl
      rw [hl]
    | cons e1 es2 =>
      rw [List.getLast?_cons_cons] at hl
      rcases List.mem_cons.mp he with rfl | he2
      · have hlm : last ∈ e1 :: es2 := List.mem_of_mem_getLast? hl
        exact le_of_lt (chainBnd_mem hc.2.2 last hlm).1
      · exact ih hc.2.2 hl e he2

theorem chain_head_min {es : List DataPair} {lo hi : Option Int}
    (hc : ChainBnd lo hi es) {first : DataPair} (hh : es.head? = some first) :
    ∀ e ∈ es, first.key ≤ e.key := by
  cases es with
  | nil => cases hh
  | cons e0 es =>
    intro e he
    rcases Option.some.injEq .. ▸ hh with rfl
    · rcases List.mem_cons.mp he with rfl | he2
      · exact le_rfl
      · exact le_of_lt (chainBnd_mem hc.2.2 e he2).1

theorem seqB_keys_bdd (st : HState) (h : Nat)
    (hb : ∀ sid lo hi, hOrdH st h sid lo hi = true →
      ∀ x ∈ hKeysH st h sid, oLT lo x ∧ oGT hi x) :
    ∀ (es : List DataPair) (cs : List Nat) (lo hi : Option Int),
      seqB (fun c lo2 hi2 => hOrdH st h c lo2 hi2) lo hi es cs = true →
      ∀ x ∈ es.map DataPair.key ++ (cs.map (fun c => hKeysH st h c)).flatten,
        oLT lo x ∧ oGT hi x := by
  intro es
  induction es with
  | nil =>
    intro cs lo hi hs x hx
    match cs with
    | [] => cases hs
    | [c] =>
      rw [seqB] at hs
      simp only [List.map_nil, List.nil_append, List.map_cons, List.map_nil,
        List.flatten_cons, List.flatten_nil, List.append_nil] at hx
      exact hb c lo hi hs x hx
    | c1 :: c2 :: cs => cases hs
  | cons e es ih =>
    intro cs lo hi hs x hx
    match cs with
    | [] => cases hs
    | c :: cs =>
      rw [seqB] at hs
      simp only [Bool.and_eq_true, decide_eq_true_eq] at hs
      obtain ⟨⟨⟨hlo, hhi⟩, hc⟩, htail⟩ := hs
      rcases List.mem_append.mp hx with hx1 | hx2
      · rw [List.map_cons] at hx1
        rcases List.mem_cons.mp hx1 with rfl | hx1b
        · exact ⟨hlo, hhi⟩
        · have := ih cs (some e.key) hi htail x (List.mem_append_left _ hx1b)
          exact ⟨oLT_of_lt hlo this.1, this.2⟩
      · rw [List.map_cons, List.flatten_cons] at hx2
        rcases List.mem_append.mp hx2 with hxc | hxrest
        · have := hb c lo (some e.key) hc x hxc
          exact ⟨this.1, oGT_of_lt this.2 hhi⟩
        · have := ih cs (some e.key) hi htail x (List.mem_append_right _ hxrest)
          exact ⟨oLT_of_lt hlo this.1, this.2⟩

theorem hOrdH_keys_bdd (st : HState) : ∀ (h : Nat) (sid : Nat) (lo hi : Option Int),
    hOrdH st h sid lo hi = true →
    ∀ x ∈ hKeysH st h sid, oLT lo x ∧ oGT hi x := by
  intro h
  induction h with
  | zero =>
    intro sid lo hi ho x hx
    rw [hOrdH] at ho
    rw [hKeysH] at hx
    rcases hn : st.nodes[sid]? with _ | n
    · rw [hn] at ho; cases ho
    · rw [hn] at ho hx
      simp only [Bool.and_eq_true] at ho
      obtain ⟨e, he, rfl⟩ := List.mem_map.mp hx
      exact chainBnd_mem (chainB_sound ho.2) e he
  | succ h ih =>
    intro sid lo hi ho x hx
    rw [hOrdH] at ho
    rw [hKeysH] at hx
    rcases hn : st.nodes[sid]? with _ | n
    · rw [hn] at ho; cases ho
    · rw [hn] at ho hx
      rcases hlf : n.is_leaf with _ | _
      · simp only [hlf, Bool.false_eq_true, if_false, Bool.and_eq_true] at ho hx
        exact seqB_keys_bdd st h ih n.elements n.children lo hi ho.2 x hx
      · simp only [hlf, if_true, Bool.and_eq_true, List.append_nil] at ho hx
        obtain ⟨e, he, rfl⟩ := List.mem_map.mp hx
        exact chainBnd_mem (chainB_sound ho.2) e he

theorem getLast?_cons_ne_nil {α : Type} (a : α) {l : List α} (h : l ≠ []) :
    (a :: l).getLast? = l.getLast? := by
  cases l with
  | nil => exact absurd rfl h
  | cons b l2 => exact List.getLast?_cons_cons ..

theorem exists_getLast?_of_ne_empty {α : Type} {l : List α}
    (h : ¬ l.isEmpty = true) : ∃ x, l.getLast? = some x := by
  cases hl : l.getLast? with
  | none => rw [List.getLast?_eq_none_iff] at hl; subst hl; simp at h
  | some a => exact ⟨a, rfl⟩

theorem walkRightmostH_max (st : HState) : ∀ (h : Nat) (sid : Nat)
    (lo hi : Option Int) (fuel : Nat), h < fuel →
    hOrdH st h sid lo hi = true →
    ∃ lm ln pred,
      walkRightmostH fuel st sid = .ok lm ∧
      st.nodes[lm]? = some ln ∧ ln.is_leaf = true ∧
      ln.elements.getLast? = some pred ∧
      pred.key ∈ hKeysH st h sid ∧
      (∀ x ∈ hKeysH st h sid, x ≤ pred.key) ∧
      lm ∈ hAddrsH st h sid := by
  intro h
  induction h with
  | zero =>
    intro sid lo hi fuel hfuel ho
    obtain ⟨f, rfl⟩ : ∃ f, fuel = f + 1 := ⟨fuel - 1, by omega⟩
    rw [hOrdH] at ho
    rcases hn : st.nodes[sid]? with _ | n
    · rw [hn] at ho; cases ho
    · rw [hn] at ho
      simp only [Bool.and_eq_true] at ho
      obtain ⟨⟨hleaf, hne⟩, hchain⟩ := ho
      obtain ⟨pred, hpred⟩ := exists_getLast?_of_ne_empty (by simpa using hne)
      refine ⟨sid, n, pred, ?_, hn, hleaf, hpred, ?_, ?_, ?_⟩
      · rw [walkRightmostH]
        simp only [getN_eq hn, ok_bind, hleaf, if_true]
      · rw [hKeysH, hn]
        exact List.mem_map.mpr ⟨pred, List.mem_of_mem_getLast? hpred, rfl⟩
      · rw [hKeysH, hn]
        intro x hx
        obtain ⟨e, he, rfl⟩ := List.mem_map.mp hx
        exact chain_last_max (chainB_sound hchain) hpred e he
      · rw [hAddrsH]
        exact List.mem_singleton.mpr rfl
  | succ h ih =>
    intro sid lo hi fuel hfuel ho
    obtain ⟨f, rfl⟩ : ∃ f, fuel = f + 1 := ⟨fuel - 1, by omega⟩
    rw [hOrdH] at ho
    rcases hn : st.nodes[sid]? with _ | n
    · rw [hn] at ho; cases ho
    · rw [hn] at ho
      rcases hlf : n.is_leaf with _ | _
      · -- internal node: descend into the last child
        simp only [hlf, Bool.false_eq_true, if_false, Bool.and_eq_true] at ho
        obtain ⟨hne, hseq0⟩ := ho
        have hseq : ∀ (es : List DataPair) (cs : List Nat) (lo : Option Int),
            seqB (fun c lo2 hi2 => hOrdH st h c lo2 hi2) lo hi es cs = true →
            ∃ clast lo2, cs.getLast? = some clast ∧
              hOrdH st h clast lo2 hi = true ∧
              (∀ z, oLT lo2 z → oLT lo z) ∧
              ∀ pk, (∀ z ∈ hKeysH st h clast, z ≤ pk) → oLT lo2 pk →
                ∀ x ∈ es.map DataPair.key ++
                  (cs.map (fun c => hKeysH st h c)).flatten, x ≤ pk := by
          intro es
          induction es with
          | nil =>
            intro cs lo hs
            match cs with
            | [] => cases hs
            | [c] =>
              rw [seqB] at hs
              refine ⟨c, lo, rfl, hs, fun z hz => hz, ?_⟩
              intro pk hub _ x hx
              simp only [List.map_nil, List.nil_append, List.map_cons,
                List.map_nil, List.flatten_cons, List.flatten_nil,
                List.append_nil] at hx
              exact hub x hx
            | c1 :: c2 :: cs => cases hs
          | cons e es ihes =>
            intro cs lo hs
            match cs with
            | [] => cases hs
            | c :: cs =>
              rw [seqB] at hs
              simp only [Bool.and_eq_true, decide_eq_true_eq] at hs
              obtain ⟨⟨⟨hlo, hhi⟩, hc⟩, htail⟩ := hs
              obtain ⟨clast, lo2, hgl, hord, himp, hdom⟩ := ihes cs (some e.key) htail
              have hcsne : cs ≠ [] := by
                intro hcs; subst hcs; cases hgl
              refine ⟨clast, lo2, by rw [getLast?_cons_ne_nil c hcsne]; exact hgl,
                hord, ?_, ?_⟩
              · intro z hz
                exact oLT_of_lt hlo (himp z hz)
              · intro pk hub hlo2 x hx
                rcases List.mem_append.mp hx with hx1 | hx2
                · rw [List.map_cons] at hx1
                  rcases List.mem_cons.mp hx1 with rfl | hx1b
                  · exact le_of_lt (himp pk hlo2)
                  · exact hdom pk hub hlo2 x (List.mem_append_left _ hx1b)
                · rw [List.map_cons, List.flatten_cons] at hx2
                  rcases List.mem_append.mp hx2 with hxc | hxrest
                  · have := hOrdH_keys_bdd st h c lo (some e.key) hc x hxc
                    exact le_of_lt (lt_trans this.2 (himp pk hlo2))
                  · exact hdom pk hub hlo2 x (List.mem_append_right _ hxrest)
        obtain ⟨clast, lo2, hgl, hord, himp, hdom⟩ :=
          hseq n.elements n.children lo hseq0
        obtain ⟨lm, ln, pred, hwalk, hlnn, hlnleaf, hlnlast, hpmem, hpmax, hpaddr⟩ :=
          ih clast lo2 hi f (by omega) hord
        have hclmem : clast ∈ n.children := List.mem_of_mem_getLast? hgl
        have hplo2 : oLT lo2 pred.key :=
          (hOrdH_keys_bdd st h clast lo2 hi hord pred.key hpmem).1
        refine ⟨lm, ln, pred, ?_, hlnn, hlnleaf, hlnlast, ?_, ?_, ?_⟩
        · rw [walkRightmostH]
          simp only [getN_eq hn, ok_bind, hlf, Bool.false_eq_true, if_false,
            vBack_eq hgl, hwalk]
        · simp only [hKeysH, hn, hlf, Bool.false_eq_true, if_false]
          refine List.mem_append_right _ ?_
          exact List.mem_flatten.mpr ⟨hKeysH st h clast,
            List.mem_map.mpr ⟨clast, hclmem, rfl⟩, hpmem⟩
        · simp only [hKeysH, hn, hlf, Bool.false_eq_true, if_false]
          exact hdom pred.key hpmax hplo2
        · simp only [hAddrsH, hn, hlf, Bool.false_eq_true, if_false]
          refine List.mem_cons.mpr (Or.inr ?_)
          exact List.mem_flatten.mpr ⟨hAddrsH st h clast,
            List.mem_map.mpr ⟨clast, hclmem, rfl⟩, hpaddr⟩
      · -- leaf at positive height bound
        simp only [hlf, if_true, Bool.and_eq_true] at ho
        obtain ⟨hne, hchain⟩ := ho
        obtain ⟨pred, hpred⟩ := exists_getLast?_of_ne_empty (by simpa using hne)
        refine ⟨sid, n, pred, ?_, hn, hlf, hpred, ?_, ?_, ?_⟩
        · rw [walkRightmostH]
          simp only [getN_eq hn, ok_bind, hlf, if_true]
        · simp only [hKeysH, hn, hlf, if_true, List.append_nil]
          exact List.mem_map.mpr ⟨pred, List.mem_of_mem_getLast? hpred, rfl⟩
        · simp only [hKeysH, hn, hlf, if_true, List.append_nil]
          intro x hx
          obtain ⟨e, he, rfl⟩ := List.mem_map.mp hx
          exact chain_last_max (chainB_sound hchain) hpred e he
        · simp only [hAddrsH, hn, hlf, if_true]
          exact List.mem_cons.mpr (Or.inl rfl)

theorem exists_head?_of_ne_empty {α : Type} {l : List α}
    (h : ¬ l.isEmpty = true) : ∃ x, l.head? = some x := by
  cases l with
  | nil => simp at h
  | cons a l2 => exact ⟨a, rfl⟩

theorem walkLeftmostH_min (st : HState) : ∀ (h : Nat) (sid : Nat)
    (lo hi : Option Int) (fuel : Nat) (acc : List Nat), h < fuel →
    hOrdH st h sid lo hi = true →
    ∃ rm rn succ d,
      walkLeftmostH fuel st sid acc = .ok (rm, acc ++ List.replicate d 0) ∧
      st.nodes[rm]? = some rn ∧ rn.is_leaf = true ∧
      rn.elements.head? = some succ ∧
      succ.key ∈ hKeysH st h sid ∧
      (∀ x ∈ hKeysH st h sid, succ.key ≤ x) ∧
      rm ∈ hAddrsH st h sid := by
  intro h
  induction h with
  | zero =>
    intro sid lo hi fuel acc hfuel ho
    obtain ⟨f, rfl⟩ : ∃ f, fuel = f + 1 := ⟨fuel - 1, by omega⟩
    rw [hOrdH] at ho
    rcases hn : st.nodes[sid]? with _ | n
    · rw [hn] at ho; cases ho
    · rw [hn] at ho
      simp only [Bool.and_eq_true] at ho
      obtain ⟨⟨hleaf, hne⟩, hchain⟩ := ho
      obtain ⟨succ0, hsucc⟩ := exists_head?_of_ne_empty (by simpa using hne)
      refine ⟨sid, n, succ0, 0, ?_, hn, hleaf, hsucc, ?_, ?_, ?_⟩
      · rw [walkLeftmostH]
        simp only [getN_eq hn, ok_bind, hleaf, if_true, List.replicate,
          List.append_nil]
      · rw [hKeysH, hn]
        exact List.mem_map.mpr ⟨succ0, List.mem_of_mem_head? hsucc, rfl⟩
      · rw [hKeysH, hn]
        intro x hx
        obtain ⟨e, he, rfl⟩ := List.mem_map.mp hx
        exact chain_head_min (chainB_sound hchain) hsucc e he
      · rw [hAddrsH]
        exact List.mem_singleton.mpr rfl
  | succ h ih =>
    intro sid lo hi fuel acc hfuel ho
    obtain ⟨f, rfl⟩ : ∃ f, fuel = f + 1 := ⟨fuel - 1, by omega⟩
    rw [hOrdH] at ho
    rcases hn : st.nodes[sid]? with _ | n
    · rw [hn] at ho; cases ho
    · rw [hn] at ho
      rcases hlf : n.is_leaf with _ | _
      · -- internal node: descend into the first child
        simp only [hlf, Bool.false_eq_true, if_false, Bool.and_eq_true] at ho
        obtain ⟨hne, hseq0⟩ := ho
        have hseq : ∀ (es : List DataPair) (cs : List Nat) (lo : Option Int),
            seqB (fun c lo2 hi2 => hOrdH st h c lo2 hi2) lo hi es cs = true →
            ∃ cfirst hi2, cs.head? = some cfirst ∧
              hOrdH st h cfirst lo hi2 = true ∧
              ∀ sk, sk ∈ hKeysH st h cfirst →
                (∀ z ∈ hKeysH st h cfirst, sk ≤ z) →
                ∀ x ∈ es.map DataPair.key ++
                  (cs.map (fun c => hKeysH st h c)).flatten, sk ≤ x := by
          intro es cs lo hs
          match es, cs with
          | [], [] => cases hs
          | [], [c] =>
            rw [seqB] at hs
            refine ⟨c, hi, rfl, hs, ?_⟩
            intro sk _ hlb x hx
            simp only [List.map_nil, List.nil_append, List.map_cons,
              List.map_nil, List.flatten_cons, List.flatten_nil,
              List.append_nil] at hx
            exact hlb x hx
          | [], c1 :: c2 :: cs => cases hs
          | e :: es, [] => cases hs
          | e :: es, c :: cs =>
            rw [seqB] at hs
            simp only [Bool.and_eq_true, decide_eq_true_eq] at hs
            obtain ⟨⟨⟨hlo, hhi⟩, hc⟩, htail⟩ := hs
            refine ⟨c, some e.key, rfl, hc, ?_⟩
            intro sk hskmem hlb x hx
            have hske : sk < e.key :=
              (hOrdH_keys_bdd st h c lo (some e.key) hc sk hskmem).2
            rcases List.mem_append.mp hx with hx1 | hx2
            · rw [List.map_cons] at hx1
              rcases List.mem_cons.mp hx1 with rfl | hx1b
              · exact le_of_lt hske
              · have := seqB_keys_bdd st h (hOrdH_keys_bdd st h) es cs
                  (some e.key) hi htail x (List.mem_append_left _ hx1b)
                exact le_of_lt (lt_trans hske this.1)
            · rw [List.map_cons, List.flatten_cons] at hx2
              rcases List.mem_append.mp hx2 with hxc | hxrest
              · exact hlb x hxc
              · have := seqB_keys_bdd st h (hOrdH_keys_bdd st h) es cs
                  (some e.key) hi htail x (List.mem_append_right _ hxrest)
                exact le_of_lt (lt_trans hske this.1)
        obtain ⟨cfirst, hi2, hhd, hord, hdom⟩ :=
          hseq n.elements n.children lo hseq0
        obtain ⟨rm, rn, succ0, d, hwalk, hrnn, hrnleaf, hrnhead, hsmem, hsmin, hsaddr⟩ :=
          ih cfirst lo hi2 f (acc ++ [0]) (by omega) hord
        have hcfmem : cfirst ∈ n.children := List.mem_of_mem_head? hhd
        refine ⟨rm, rn, succ0, d + 1, ?_, hrnn, hrnleaf, hrnhead, ?_, ?_, ?_⟩
        · rw [walkLeftmostH]
          simp only [getN_eq hn, ok_bind, hlf, Bool.false_eq_true, if_false,
            vFront_eq hhd, hwalk]
          rw [List.append_assoc, List.replicate_succ]
          rfl
        · simp only [hKeysH, hn, hlf, Bool.false_eq_true, if_false]
          refine List.mem_append_right _ ?_
          exact List.mem_flatten.mpr ⟨hKeysH st h cfirst,
            List.mem_map.mpr ⟨cfirst, hcfmem, rfl⟩, hsmem⟩
        · simp only [hKeysH, hn, hlf, Bool.false_eq_true, if_false]
          exact hdom succ0.key hsmem hsmin
        · simp only [hAddrsH, hn, hlf, Bool.false_eq_true, if_false]
          refine List.mem_cons.mpr (Or.inr ?_)
          exact List.mem_flatten.mpr ⟨hAddrsH st h cfirst,
            List.mem_map.mpr ⟨cfirst, hcfmem, rfl⟩, hsaddr⟩
      · -- leaf at positive height bound
        simp only [hlf, if_true, Bool.and_eq_true] at ho
        obtain ⟨hne, hchain⟩ := ho
        obtain ⟨succ0, hsucc⟩ := exists_head?_of_ne_empty (by simpa using hne)
        refine ⟨sid, n, succ0, 0, ?_, hn, hlf, hsucc, ?_, ?_, ?_⟩
        · rw [walkLeftmostH]
          simp only [getN_eq hn, ok_bind, hlf, if_true, List.replicate,
            List.append_nil]
        · simp only [hKeysH, hn, hlf, if_true, List.append_nil]
          exact List.mem_map.mpr ⟨succ0, List.mem_of_mem_head? hsucc, rfl⟩
        · simp only [hKeysH, hn, hlf, if_true, List.append_nil]
          intro x hx
          obtain ⟨e, he, rfl⟩ := List.mem_map.mp hx
          exact chain_head_min (chainB_sound hchain) hsucc e he
        · simp only [hAddrsH, hn, hlf, if_true]
          exact List.mem_cons.mpr (Or.inl rfl)

/-- C6: removal of a key found in an inner node.  With the key at index
idx of inner node sid, left child subtree lm0 and right child subtree rm0
ordered and live and not containing sid, the code walks rightmost children
of lm0 to a leaf whose last entry is the predecessor (the maximum key of
the left subtree); exactly when that leaf has surplus entries the
separator is overwritten with the predecessor and the predecessor is
removed from its leaf directly.  Otherwise the code walks leftmost
children of rm0 to a leaf whose first entry is the successor (the minimum
key of the right subtree) and overwrites the separator with it
unconditionally; the successor is erased from its leaf directly when that
leaf has surplus and through remove_from_leaf (the usual leaf rebalancing,
at index 0 with the recorded descent path) when it does not. -/
theorem remove_from_innerH_spec
    (st : HState) (sid idx : Nat) (s : HNode) (before : List Nat)
    (h fuel : Nat) (lm0 rm0 : Nat) (loL hiL loR hiR : Option Int)
    (hs : st.nodes[sid]? = some s)
    (hidx : idx < s.elements.length)
    (hlm0 : s.children[idx]? = some lm0)
    (hrm0 : s.children[idx + 1]? = some rm0)
    (hordL : hOrdH st h lm0 loL hiL = true)
    (hordR : hOrdH st h rm0 loR hiR = true)
    (hsidL : sid ∉ hAddrsH st h lm0)
    (hsidR : sid ∉ hAddrsH st h rm0)
    (hfuel : h < fuel) :
    ∃ lm ln pred,
      walkRightmostH fuel st lm0 = .ok lm ∧
      st.nodes[lm]? = some ln ∧ ln.is_leaf = true ∧
      ln.elements.getLast? = some pred ∧
      pred.key ∈ hKeysH st h lm0 ∧
      (∀ x ∈ hKeysH st h lm0, x ≤ pred.key) ∧
      ((st.order - 1) / 2 < ln.elements.length →
        remove_from_innerH fuel st sid idx before =
          .ok { st with nodes :=
            ((st.nodes.set sid { s with elements := s.elements.set idx pred }).set
              lm { ln with elements := ln.elements.dropLast }) }) ∧
      (¬ ((st.order - 1) / 2 < ln.elements.length) →
        ∃ rm rn succ d,
          walkLeftmostH fuel st rm0 (before ++ [idx + 1]) =
            .ok (rm, (before ++ [idx + 1]) ++ List.replicate d 0) ∧
          st.nodes[rm]? = some rn ∧ rn.is_leaf = true ∧
          rn.elements.head? = some succ ∧
          succ.key ∈ hKeysH st h rm0 ∧
          (∀ x ∈ hKeysH st h rm0, succ.key ≤ x) ∧
          ((st.order - 1) / 2 < rn.elements.length →
            remove_from_innerH fuel st sid idx before =
              .ok { st with nodes :=
                ((st.nodes.set sid { s with elements := s.elements.set idx succ }).set
                  rm { rn with elements := rn.elements.eraseIdx 0 }) }) ∧
          (¬ ((st.order - 1) / 2 < rn.elements.length) →
            remove_from_innerH fuel st sid idx before =
              remove_from_leafH
                { st with nodes :=
                  (st.nodes.set sid { s with elements := s.elements.set idx succ }) }
                rm 0 ((before ++ [idx + 1]) ++ List.replicate d 0))) := by
  have hsidlt : sid < st.nodes.length := lt_of_getElem?_some hs
  obtain ⟨lm, ln, pred, hwalk, hlnn, hlnleaf, hlnlast, hpmem, hpmax, hpaddr⟩ :=
    walkRightmostH_max st h lm0 loL hiL fuel hfuel hordL
  have hlmlt : lm < st.nodes.length := lt_of_getElem?_some hlnn
  have hsnelm : sid ≠ lm := fun hh => hsidL (hh ▸ hpaddr)
  have hlnne : ¬ (ln.elements.isEmpty = true) := by
    cases hel : ln.elements with
    | nil => rw [hel] at hlnlast; cases hlnlast
    | cons a l => simp [hel]
  refine ⟨lm, ln, pred, hwalk, hlnn, hlnleaf, hlnlast, hpmem, hpmax, ?_, ?_⟩
  · -- predecessor branch: the left leaf has surplus entries
    intro hsur
    rw [remove_from_innerH]
    simp only [getN_eq hs, ok_bind, vGet_eq hlm0, vGet_eq hrm0, hwalk,
      getN_eq hlnn]
    rw [if_pos hsur]
    have hget5 : getN { st with nodes := (st.nodes.set sid
        { s with elements := s.elements.set idx pred }) } lm = .ok ln :=
      getN_eq (by
        simp only [List.getElem?_set_ne hsnelm]
        exact hlnn)
    have hset6 : setN { st with nodes := (st.nodes.set sid
          { s with elements := s.elements.set idx pred }) } lm
          { ln with elements := ln.elements.dropLast } =
        .ok { st with nodes := ((st.nodes.set sid
          { s with elements := s.elements.set idx pred }).set lm
          { ln with elements := ln.elements.dropLast }) } :=
      setN_ok _ (by simp only [List.length_set]; exact hlmlt)
    simp only [vBack_eq hlnlast, ok_bind, getN_eq hs, vSet_ok pred hidx,
      setN_ok _ hsidlt, hget5]
    rw [if_neg hlnne]
    rw [hset6]
  · -- successor branch: the left leaf is at minimum occupancy
    intro hnsur
    obtain ⟨rm, rn, succ0, d, hlwalk, hrnn, hrnleaf, hrnhead, hsmem, hsmin, hsaddr⟩ :=
      walkLeftmostH_min st h rm0 loR hiR fuel (before ++ [idx + 1]) hfuel hordR
    have hrmlt : rm < st.nodes.length := lt_of_getElem?_some hrnn
    have hsnerm : sid ≠ rm := fun hh => hsidR (hh ▸ hsaddr)
    have hrnpos : 0 < rn.elements.length := by
      cases hel : rn.elements with
      | nil => rw [hel] at hrnhead; cases hrnhead
      | cons a l => simp [hel]
    refine ⟨rm, rn, succ0, d, hlwalk, hrnn, hrnleaf, hrnhead, hsmem, hsmin, ?_, ?_⟩
    · -- the right leaf has surplus: erase its front directly
      intro hsur2
      rw [remove_from_innerH]
      simp only [getN_eq hs, ok_bind, vGet_eq hlm0, vGet_eq hrm0, hwalk,
        getN_eq hlnn]
      rw [if_neg hnsur]
      simp only [hlwalk, ok_bind, getN_eq hrnn]
      rw [if_pos hsur2]
      have hget7 : getN { st with nodes := (st.nodes.set sid
          { s with elements := s.elements.set idx succ0 }) } rm = .ok rn :=
        getN_eq (by
          simp only [List.getElem?_set_ne hsnerm]
          exact hrnn)
      have hset8 : setN { st with nodes := (st.nodes.set sid
            { s with elements := s.elements.set idx succ0 }) } rm
            { rn with elements := rn.elements.eraseIdx 0 } =
          .ok { st with nodes := ((st.nodes.set sid
            { s with elements := s.elements.set idx succ0 }).set rm
            { rn with elements := rn.elements.eraseIdx 0 }) } :=
        setN_ok _ (by simp only [List.length_set]; exact hrmlt)
      simp only [vFront_eq hrnhead, ok_bind, getN_eq hs, vSet_ok succ0 hidx,
        setN_ok _ hsidlt, hget7, vErase_ok hrnpos]
      rw [hset8]
    · -- the right leaf is at minimum: delegate to remove_from_leaf
      intro hnsur2
      rw [remove_from_innerH]
      simp only [getN_eq hs, ok_bind, vGet_eq hlm0, vGet_eq hrm0, hwalk,
        getN_eq hlnn]
      rw [if_neg hnsur]
      simp only [hlwalk, ok_bind, getN_eq hrnn]
      rw [if_neg hnsur2]
      simp only [vFront_eq hrnhead, ok_bind, getN_eq hs, vSet_ok succ0 hidx,
        setN_ok _ hsidlt]

/-- Concrete order-3 tree for the C6 witness: root [3] over leaves [1,2]
and [4]. -/
def c6tree : HState :=
  ⟨3, [⟨false, [⟨3, 3⟩], [1, 2], none⟩,
    ⟨true, [⟨1, 1⟩, ⟨2, 2⟩], [], some 0⟩,
    ⟨true, [⟨4, 4⟩], [], some 0⟩], some 0⟩

/-- The root node of c6tree with its separator replaced. -/
def c6root (e : DataPair) : HNode :=
  ⟨false, [(⟨3, 3⟩ : DataPair)].set 0 e, [1, 2], none⟩

theorem c6_witness :
    ∃ lm ln pred,
      walkRightmostH 1 c6tree 1 = .ok lm ∧
      c6tree.nodes[lm]? = some ln ∧ ln.is_leaf = true ∧
      ln.elements.getLast? = some pred ∧
      pred.key ∈ hKeysH c6tree 0 1 ∧
      (∀ x ∈ hKeysH c6tree 0 1, x ≤ pred.key) ∧
      (1 < ln.elements.length →
        remove_from_innerH 1 c6tree 0 0 [] =
          .ok { c6tree with nodes :=
            ((c6tree.nodes.set 0 (c6root pred)).set
              lm { ln with elements := ln.elements.dropLast }) }) ∧
      (¬ (1 < ln.elements.length) →
        ∃ rm rn succ d,
          walkLeftmostH 1 c6tree 2 [1] =
            .ok (rm, [1] ++ List.replicate d 0) ∧
          c6tree.nodes[rm]? = some rn ∧ rn.is_leaf = true ∧
          rn.elements.head? = some succ ∧
          succ.key ∈ hKeysH c6tree 0 2 ∧
          (∀ x ∈ hKeysH c6tree 0 2, succ.key ≤ x) ∧
          (1 < rn.elements.length →
            remove_from_innerH 1 c6tree 0 0 [] =
              .ok { c6tree with nodes :=
                ((c6tree.nodes.set 0 (c6root succ)).set
                  rm { rn with elements := rn.elements.eraseIdx 0 }) }) ∧
          (¬ (1 < rn.elements.length) →
            remove_from_innerH 1 c6tree 0 0 [] =
              remove_from_leafH
                { c6tree with nodes := (c6tree.nodes.set 0 (c6root succ)) }
                rm 0 ([1] ++ List.replicate d 0))) :=
  remove_from_innerH_spec c6tree 0 0
    ⟨false, [⟨3, 3⟩], [1, 2], none⟩ [] 0 1 1 2 none (some 3) (some 3) none
    (by decide) (by decide) (by decide) (by decide) (by decide) (by decide)
    (by decide) (by decide) (by decide)
